import Mathlib

/-!
Verification of the concurrent brute-force password-search engine of
`pdf_pycrack` against its natural-language specification.

The development shallowly embeds the program:

* `generate_passwords` / `productR` embed the pure candidate generator of
  `src/pdf_pycrack/password_generator.py` (built on `itertools.product`).
* `totalPasswords` embeds the search-space formula computed in
  `_manage_workers` (`core.py`, lines 172-174).
* A small-step interleaving machine (`St`, `step`, `exec`) embeds the
  concurrent system of `core.py`: the generator process
  (`_password_generator_process`), the worker pool (`worker`) and the
  coordinator loop of `_manage_workers`.  Nondeterminism (OS scheduling,
  queue timeouts, user interruption) is a scheduling oracle `List Sched`.
* `crack_pdf_password` embeds the init phase of `crack_pdf_password`
  (`core.py`, lines 45-85) over an abstract probe result.
* `shutdownJoinCalls` records the structure of the join calls issued at
  shutdown (`core.py`, lines 258-262).
-/

/-- Embedding of `itertools.product(charset, repeat=n)` (each tuple joined
to a string, strings as `List Char`): all words of length `n` over
`charset`, leftmost position varying slowest, exactly the order produced
by `itertools.product`. -/
def productR (charset : List Char) : Nat → List (List Char)
  | 0 => [[]]
  | n + 1 => charset.flatMap (fun c => (productR charset n).map (c :: ·))

/-- Embedding of `generate_passwords` (`password_generator.py`, lines 5-11):
`"".join(p) for length in range(min_len, max_len + 1) for p in
itertools.product(charset, repeat=length)`, as the list of produced
candidates in production order. -/
def generate_passwords (minLen maxLen : Nat) (charset : List Char) : List (List Char) :=
  (List.range' minLen (maxLen + 1 - minLen)).flatMap (productR charset)

/-- Embedding of `total_passwords_to_check` (`core.py`, lines 172-174):
`sum(len(charset) ** length for length in range(min_len, max_len + 1))`. -/
def totalPasswords (minLen maxLen k : Nat) : Nat :=
  ((List.range' minLen (maxLen + 1 - minLen)).map (k ^ ·)).sum

/-- Spec-side characterization of the Cartesian-product order: the word at
position `n` among the length-`L` words is the base-`|charset|`
representation of `n` (most significant digit first), written with the
characters of `charset` as digits.  Defined independently of `productR`. -/
def nthWord (charset : List Char) : Nat → Nat → List Char
  | 0, _ => []
  | L + 1, n =>
      charset.getD (n / charset.length ^ L) 'a' :: nthWord charset L (n % charset.length ^ L)

theorem productR_length (charset : List Char) (n : Nat) :
    (productR charset n).length = charset.length ^ n := by
  induction n with
  | zero => simp [productR]
  | succ n ih =>
    simp only [productR, List.length_flatMap, Function.comp_def, List.length_map, ih]
    rw [List.map_const', List.sum_replicate, smul_eq_mul, pow_succ]
    ring

theorem length_generate_passwords (minLen maxLen : Nat) (charset : List Char) :
    (generate_passwords minLen maxLen charset).length
      = totalPasswords minLen maxLen charset.length := by
  simp [generate_passwords, totalPasswords, List.length_flatMap, Function.comp_def,
    productR_length]

theorem mem_productR {charset : List Char} {n : Nat} {p : List Char}
    (hp : p ∈ productR charset n) : p.length = n ∧ ∀ c ∈ p, c ∈ charset := by
  induction n generalizing p with
  | zero => simp [productR] at hp; simp [hp]
  | succ n ih =>
    simp only [productR, List.mem_flatMap, List.mem_map] at hp
    obtain ⟨c, hc, q, hq, rfl⟩ := hp
    obtain ⟨hlen, hmem⟩ := ih hq
    refine ⟨by simp [hlen], ?_⟩
    intro d hd
    rcases List.mem_cons.mp hd with rfl | hd
    · exact hc
    · exact hmem d hd

theorem mem_generate_passwords {minLen maxLen : Nat} {charset : List Char} {p : List Char}
    (hp : p ∈ generate_passwords minLen maxLen charset) :
    minLen ≤ p.length ∧ p.length ≤ maxLen ∧ ∀ c ∈ p, c ∈ charset := by
  simp only [generate_passwords, List.mem_flatMap, List.mem_range'_1] at hp
  obtain ⟨L, ⟨hL1, hL2⟩, hpL⟩ := hp
  obtain ⟨hlen, hmem⟩ := mem_productR hpL
  exact ⟨by omega, by omega, hmem⟩

theorem totalPasswords_eq_Icc_sum (minLen maxLen k : Nat) :
    totalPasswords minLen maxLen k = (Finset.Icc minLen maxLen).sum (k ^ ·) := by
  induction maxLen with
  | zero =>
    match minLen with
    | 0 => simp [totalPasswords]
    | m + 1 =>
      rw [Finset.Icc_eq_empty (by omega)]
      simp [totalPasswords]
  | succ maxLen ih =>
    by_cases h : minLen ≤ maxLen + 1
    · have hr : maxLen + 1 + 1 - minLen = (maxLen + 1 - minLen) + 1 := by omega
      rw [totalPasswords, hr, List.range'_concat, Finset.sum_Icc_succ_top h]
      have harg : minLen + 1 * (maxLen + 1 - minLen) = maxLen + 1 := by omega
      simp only [List.map_append, List.sum_append, List.map_cons, List.map_nil,
        List.sum_cons, List.sum_nil, harg]
      rw [← totalPasswords, ih]
      ring
    · rw [Finset.Icc_eq_empty h]
      have hr : maxLen + 1 + 1 - minLen = 0 := by omega
      simp [totalPasswords, hr]

theorem pairwise_of_mem_rel {α : Type} {R : α → α → Prop} :
    ∀ (l : List α), (∀ a ∈ l, ∀ b ∈ l, R a b) → l.Pairwise R
  | [], _ => List.Pairwise.nil
  | a :: t, h => by
    rw [List.pairwise_cons]
    refine ⟨fun b hb => h a (by simp) b (by simp [hb]), ?_⟩
    exact pairwise_of_mem_rel t (fun x hx y hy => h x (by simp [hx]) y (by simp [hy]))

theorem generate_passwords_pairwise_length (minLen maxLen : Nat) (charset : List Char) :
    (generate_passwords minLen maxLen charset).Pairwise (fun p q => p.length ≤ q.length) := by
  rw [generate_passwords]
  have hsort : ∀ s n, (List.range' s n (1 : Nat)).Pairwise (· ≤ ·) := by
    intro s n
    induction n generalizing s with
    | zero => exact List.Pairwise.nil
    | succ n ih =>
      rw [List.range'_succ, List.pairwise_cons]
      refine ⟨fun b hb => ?_, ih (s + 1)⟩
      have := (List.mem_range'_1).mp hb
      omega
  have key : ∀ (l : List Nat), l.Pairwise (· ≤ ·) →
      (l.flatMap (productR charset)).Pairwise (fun p q => p.length ≤ q.length) := by
    intro l
    induction l with
    | nil => intro _; simp
    | cons a t ih =>
      intro hl
      rw [List.pairwise_cons] at hl
      rw [List.flatMap_cons, List.pairwise_append]
      refine ⟨?_, ih hl.2, ?_⟩
      · refine pairwise_of_mem_rel _ (fun p hp q hq => ?_)
        rw [(mem_productR hp).1, (mem_productR hq).1]
      · intro p hp q hq
        rw [List.mem_flatMap] at hq
        obtain ⟨b, hb, hqb⟩ := hq
        rw [(mem_productR hp).1, (mem_productR hqb).1]
        exact hl.1 b hb
  exact key _ (hsort minLen (maxLen + 1 - minLen))

theorem getD_flatMap_uniform {α : Type} (f : α → List (List Char)) (m : Nat)
    (da : α) : ∀ (l : List α) (n : Nat), (∀ a ∈ l, (f a).length = m) →
    n < l.length * m →
    (l.flatMap f).getD n [] = (f (l.getD (n / m) da)).getD (n % m) [] := by
  intro l
  induction l with
  | nil => intro n _ hn; simp at hn
  | cons a t ih =>
    intro n hu hn
    have hm : 0 < m := by
      rcases Nat.eq_zero_or_pos m with h0 | h; · simp [h0] at hn
      · exact h
    have hfa : (f a).length = m := hu a (by simp)
    rw [List.flatMap_cons]
    by_cases hcase : n < m
    · have hdiv : n / m = 0 := Nat.div_eq_of_lt hcase
      have hmod : n % m = n := Nat.mod_eq_of_lt hcase
      have h1 : n < (f a).length := by omega
      have h2 : n < ((f a) ++ t.flatMap f).length := by
        rw [List.length_append]; omega
      rw [hdiv, hmod, List.getD_cons_zero, List.getD_eq_getElem _ _ h2,
        List.getD_eq_getElem _ _ h1, List.getElem_append_left h1]
    · push_neg at hcase
      have hdiv : n / m = (n - m) / m + 1 := Nat.div_eq_sub_div hm hcase
      have hmod : n % m = (n - m) % m := Nat.mod_eq_sub_mod hcase
      have hn' : n - m < t.length * m := by
        simp only [List.length_cons] at hn
        have : (t.length + 1) * m = t.length * m + m := by ring
        omega
      have hlhs : (f a ++ t.flatMap f).getD n [] = (t.flatMap f).getD (n - m) [] := by
        by_cases hin : n - m < (t.flatMap f).length
        · have h2 : n < (f a ++ t.flatMap f).length := by
            rw [List.length_append]; omega
          rw [List.getD_eq_getElem _ _ h2, List.getD_eq_getElem _ _ hin,
            List.getElem_append_right (by omega)]
          simp [hfa]
        · rw [List.getD_eq_default _ _ (by push_neg at hin; rw [List.length_append]; omega),
            List.getD_eq_default _ _ (by omega)]
      rw [hlhs, ih (n - m) (fun x hx => hu x (by simp [hx])) hn', hdiv, hmod]
      simp

theorem productR_getD (charset : List Char) :
    ∀ (L n : Nat), n < charset.length ^ L →
    (productR charset L).getD n [] = nthWord charset L n := by
  intro L
  induction L with
  | zero =>
    intro n hn
    rw [pow_zero] at hn
    have h0 : n = 0 := Nat.lt_one_iff.mp hn
    subst h0
    simp [productR, nthWord]
  | succ L ih =>
    intro n hn
    have hk : 0 < charset.length := by
      rcases Nat.eq_zero_or_pos charset.length with h0 | h
      · rw [h0] at hn; simp at hn
      · exact h
    have hkL : 0 < charset.length ^ L := Nat.pow_pos hk
    have hbound : n < charset.length * charset.length ^ L := by
      have hpow : charset.length ^ (L + 1) = charset.length * charset.length ^ L := by ring
      rw [← hpow]; exact hn
    have hdivlt : n / charset.length ^ L < charset.length :=
      (Nat.div_lt_iff_lt_mul hkL).mpr hbound
    have hmodlt : n % charset.length ^ L < charset.length ^ L := Nat.mod_lt _ hkL
    rw [productR, nthWord]
    rw [getD_flatMap_uniform (fun c => (productR charset L).map (c :: ·))
      (charset.length ^ L) 'a' charset n
      (fun c _ => by rw [List.length_map, productR_length])
      hbound]
    · have hmap : ((productR charset L).map
          ((charset.getD (n / charset.length ^ L) 'a') :: ·)).getD
            (n % charset.length ^ L) []
          = charset.getD (n / charset.length ^ L) 'a'
              :: (productR charset L).getD (n % charset.length ^ L) [] := by
        have hlt : n % charset.length ^ L < (productR charset L).length := by
          rw [productR_length]; exact hmodlt
        have hlt2 : n % charset.length ^ L
            < ((productR charset L).map
                ((charset.getD (n / charset.length ^ L) 'a') :: ·)).length := by
          rw [List.length_map]; exact hlt
        rw [List.getD_eq_getElem _ _ hlt2, List.getD_eq_getElem _ _ hlt,
          List.getElem_map]
      rw [hmap, ih _ hmodlt]

/-- Configuration of one run of `_manage_workers` (`core.py`, lines 147-155),
together with the opaque verification capability: `pwCheck pw = true` iff
`pikepdf.open(BytesIO(pdf_data), password=pw)` succeeds for the target
document.  `pikepdf.PasswordError` and other per-candidate verification
errors both continue the loop (the latter optionally printing), so both are
`pwCheck pw = false` here. -/
structure Cfg where
  charset : List Char
  minLen : Nat
  maxLen : Nat
  numProcesses : Nat
  batchSize : Nat
  pwCheck : List Char → Bool

/-- The candidate stream the generator process draws from
(`generate_passwords(min_len, max_len, charset)`). -/
def genList (cfg : Cfg) : List (List Char) :=
  generate_passwords cfg.minLen cfg.maxLen cfg.charset

/-- `password_queue` capacity: `manager.Queue(maxsize=num_processes * 2)`
(`core.py`, line 188). -/
def maxQ (cfg : Cfg) : Nat := cfg.numProcesses * 2

/-- Control point of the generator process `_password_generator_process`
(`core.py`, lines 114-144): the `while not stop_generating_event.is_set()`
check, the blocking `password_queue.put(password)`, the final loop pushing
one `None` sentinel per worker, and process exit. -/
inductive GenPC
  | checkStop
  | pushCand
  | sentinels (k : Nat)
  | gdone
  deriving DecidableEq

/-- Control point of a worker process (`core.py`, lines 303-367): the outer
`while not found_event.is_set()` check, the batch-filling loop, the
per-candidate loop (at index `j` of the batch: the `found_event` check of
line 345, then the `pikepdf.open` verification call), the
`progress_queue.put(len(passwords))` report, and process exit. -/
inductive WPC
  | outer
  | fill
  | proc (j : Nat)
  | verifying (j : Nat)
  | report
  | wdead
  deriving DecidableEq

/-- Control point of the coordinator (`_manage_workers`, lines 229-300):
the polling loop (`loop` = the `progress_queue.get(timeout=0.1)` site,
`checkRes` = the `if not result_queue.empty()` site), the join of all
processes, the final progress drain (lines 265-266), the final result
collection (lines 270-272, `drainRes` = inside its `while`), outcome
construction, and done. -/
inductive CoPC
  | loop
  | checkRes
  | joinPhase
  | drain
  | collect
  | drainRes
  | finish
  | cdone
  deriving DecidableEq

/-- Outcome of `_manage_workers` (lines 282-300); `elapsed_time` and
`passwords_per_second` are wall-clock quantities, not modelled. -/
inductive Outc
  | passwordFound (password : List Char) (passwordsChecked : Nat)
  | passwordNotFound (passwordsChecked : Nat)
  | crackingInterrupted (passwordsChecked : Nat)
  deriving DecidableEq

/-- Local state of one worker process.  `batch` is the local `passwords`
list (holding the candidate strings pulled from `password_queue`).
`pulled`, `reportedSum`, `verifiedW` and `verifiedBatch` are ghost
counters: candidates dequeued so far, sum of all values this worker pushed
to `progress_queue`, verification calls made so far, and verification
calls made in the current batch. -/
structure WorkerSt where
  pc : WPC
  batch : List (List Char)
  pulled : Nat
  reportedSum : Nat
  verifiedW : Nat
  verifiedBatch : Nat
  deriving DecidableEq

/-- Global state of a run of `_manage_workers`.  `pq` is `password_queue`
(FIFO, head = next to be dequeued; `none` is the `None` sentinel), `resq`
is `result_queue`, `progq` is `progress_queue`, `found` is `found_event`,
`stopGen` is `stop_generating_event`, `processed` is the coordinator's
`passwords_processed`, `foundPw` is `found_password`, `interrupted` the
coordinator's `interrupted` flag and `outcome` the returned result.
`reportLog` is a ghost trace of every value pushed to `progress_queue`
paired with the number of candidates actually verified in that batch. -/
structure St where
  gen : GenPC
  gIdx : Nat
  pq : List (Option (List Char))
  workers : List WorkerSt
  found : Bool
  stopGen : Bool
  resq : List (List Char)
  progq : List Nat
  processed : Nat
  foundPw : Option (List Char)
  interrupted : Bool
  copc : CoPC
  outcome : Option Outc
  reportLog : List (Nat × Nat)
  deriving DecidableEq

def initWorker : WorkerSt :=
  { pc := .outer, batch := [], pulled := 0, reportedSum := 0,
    verifiedW := 0, verifiedBatch := 0 }

/-- State right after `_manage_workers` has started the generator process
and the `num_processes` worker processes (lines 194-227). -/
def initSt (cfg : Cfg) : St :=
  { gen := .checkStop, gIdx := 0, pq := [],
    workers := List.replicate cfg.numProcesses initWorker,
    found := false, stopGen := false, resq := [], progq := [],
    processed := 0, foundPw := none, interrupted := false,
    copc := .loop, outcome := none, reportLog := [] }

/-- One step of the generator process (`_password_generator_process`,
lines 133-144): check `stop_generating_event`, pull the next password from
the (lazy) generator or hit `StopIteration`, block on
`password_queue.put` until there is room, and finally push one `None` per
worker.  Returns `none` when the process is blocked or has exited. -/
def genStep (cfg : Cfg) (s : St) : Option St :=
  match s.gen with
  | .checkStop =>
      if s.stopGen then some { s with gen := .sentinels cfg.numProcesses }
      else if s.gIdx < (genList cfg).length then some { s with gen := .pushCand }
      else some { s with gen := .sentinels cfg.numProcesses }
  | .pushCand =>
      if s.pq.length < maxQ cfg then
        some { s with pq := s.pq ++ [some ((genList cfg).getD s.gIdx [])],
                      gIdx := s.gIdx + 1, gen := .checkStop }
      else none
  | .sentinels (k + 1) =>
      if s.pq.length < maxQ cfg then
        some { s with pq := s.pq ++ [none], gen := .sentinels k }
      else none
  | .sentinels 0 => some { s with gen := .gdone }
  | .gdone => none

/-- Worker process exit: the `finally` clause (lines 364-367) pushes
`len(passwords)` iff the local batch is non-empty; the ghost counters are
settled accordingly. -/
def wExit (s : St) (i : Nat) (w : WorkerSt) : St :=
  let s' := if w.batch.isEmpty then s
            else { s with progq := s.progq ++ [w.batch.length],
                          reportLog := s.reportLog ++ [(w.batch.length, w.verifiedBatch)] }
  let w' := { w with pc := WPC.wdead, batch := ([] : List (List Char)),
                     reportedSum := w.reportedSum + w.batch.length,
                     verifiedBatch := 0 }
  { s' with workers := s.workers.set i w' }

/-- One step of worker `i` (`worker`, lines 303-367), except the
`queue.Empty` timeout which is `wTimeoutStep`.  At `.outer` the worker
checks `found_event` (line 326).  At `.fill` it fills its batch (lines
328-339): a successful `password_queue.get` either appends a candidate,
or, on the `None` sentinel, exits (empty batch) or goes to process the
batch.  At `.proc j` it runs the per-candidate loop header (lines 344-346)
and at `.verifying j` the `pikepdf.open` call (lines 347-357): on success
it sets `found_event` and publishes the password iff `found_event` was not
already set, then breaks; on failure it continues.  At `.report` it pushes
`len(passwords)` to `progress_queue` and clears the batch (lines 359-360).
Returns `none` when the worker is blocked on an empty queue or dead. -/
def workerStep (cfg : Cfg) (s : St) (i : Nat) : Option St :=
  match s.workers.get? i with
  | none => none
  | some w =>
    match w.pc with
    | .outer =>
        if s.found then some (wExit s i w)
        else some { s with workers := s.workers.set i { w with pc := .fill } }
    | .fill =>
        if w.batch.length < cfg.batchSize then
          match s.pq with
          | some c :: rest =>
              some { s with pq := rest,
                            workers := s.workers.set i
                              { w with batch := w.batch ++ [c], pulled := w.pulled + 1 } }
          | none :: rest =>
              if w.batch.isEmpty then some (wExit { s with pq := rest } i w)
              else some { s with pq := rest,
                                 workers := s.workers.set i { w with pc := .proc 0 } }
          | [] => none
        else
          if w.batch.isEmpty then
            some { s with workers := s.workers.set i { w with pc := .outer } }
          else some { s with workers := s.workers.set i { w with pc := .proc 0 } }
    | .proc j =>
        if j < w.batch.length then
          if s.found then some { s with workers := s.workers.set i { w with pc := .report } }
          else some { s with workers := s.workers.set i { w with pc := .verifying j } }
        else some { s with workers := s.workers.set i { w with pc := .report } }
    | .verifying j =>
        match w.batch.get? j with
        | none => none
        | some c =>
            let w' := { w with verifiedW := w.verifiedW + 1,
                               verifiedBatch := w.verifiedBatch + 1 }
            if cfg.pwCheck c then
              if s.found then
                some { s with workers := s.workers.set i { w' with pc := .report } }
              else
                some { s with found := true, resq := s.resq ++ [c],
                              workers := s.workers.set i { w' with pc := .report } }
            else
              some { s with workers := s.workers.set i { w' with pc := .proc (j + 1) } }
    | .report =>
        some { s with progq := s.progq ++ [w.batch.length],
                      reportLog := s.reportLog ++ [(w.batch.length, w.verifiedBatch)],
                      workers := s.workers.set i
                        { w with pc := .outer, batch := [],
                                 reportedSum := w.reportedSum + w.batch.length,
                                 verifiedBatch := 0 } }
    | .wdead => none

/-- The `queue.Empty` branch of the batch-filling loop (lines 336-339):
the 1-second `password_queue.get` timeout can fire only while the queue is
empty; with an empty batch the worker exits, otherwise it processes the
partial batch. -/
def wTimeoutStep (cfg : Cfg) (s : St) (i : Nat) : Option St :=
  match s.workers.get? i with
  | none => none
  | some w =>
    match w.pc with
    | .fill =>
        if w.batch.length < cfg.batchSize ∧ s.pq = [] then
          if w.batch.isEmpty then some (wExit s i w)
          else some { s with workers := s.workers.set i { w with pc := .proc 0 } }
        else none
    | _ => none

def allWorkersDead (s : St) : Bool := s.workers.all (fun w => w.pc == .wdead)

/-- Python truthiness of `found_password` (`None` and the empty string are
falsy). -/
def truthy : Option (List Char) → Bool
  | none => false
  | some [] => false
  | some (_ :: _) => true

/-- One step of the coordinator (`_manage_workers`, lines 229-300).
`loop`: the `while passwords_processed < total and not found_event` header
plus one `progress_queue.get(timeout=0.1)` attempt — on success add the
count and move to the result check; on `queue.Empty` break out iff the
generator is dead, `password_queue` is empty and no worker is alive
(lines 238-245).  `checkRes`: lines 247-251.  `joinPhase`: the blocking
`p.join()` calls (lines 258-262), enabled only once every process has
exited.  `drain`: the final progress drain (lines 265-266).  `collect` /
`drainRes`: lines 270-272.  `finish`: construct the outcome
(lines 282-300). -/
def coordStep (cfg : Cfg) (s : St) : Option St :=
  match s.copc with
  | .loop =>
      if s.processed < totalPasswords cfg.minLen cfg.maxLen cfg.charset.length
          ∧ s.found = false then
        match s.progq with
        | p :: rest =>
            some { s with processed := s.processed + p, progq := rest, copc := .checkRes }
        | [] =>
            if s.gen = .gdone ∧ s.pq = [] ∧ allWorkersDead s = true then
              some { s with copc := .joinPhase }
            else some s
      else some { s with copc := .joinPhase }
  | .checkRes =>
      match s.resq with
      | r :: rest =>
          if r.isEmpty then some { s with resq := rest, foundPw := some r, copc := .loop }
          else some { s with resq := rest, foundPw := some r, found := true,
                             stopGen := true, copc := .loop }
      | [] => some { s with copc := .loop }
  | .joinPhase =>
      if allWorkersDead s = true ∧ s.gen = .gdone then some { s with copc := .drain }
      else none
  | .drain =>
      match s.progq with
      | p :: rest => some { s with processed := s.processed + p, progq := rest }
      | [] => some { s with copc := .collect }
  | .collect =>
      if truthy s.foundPw then some { s with copc := .finish }
      else some { s with copc := .drainRes }
  | .drainRes =>
      match s.resq with
      | r :: rest => some { s with foundPw := some r, resq := rest }
      | [] => some { s with copc := .finish }
  | .finish =>
      let o := if s.interrupted then Outc.crackingInterrupted s.processed
               else if truthy s.foundPw then
                 Outc.passwordFound (s.foundPw.getD []) s.processed
               else Outc.passwordNotFound s.processed
      some { s with outcome := some o, copc := .cdone }
  | .cdone => none

/-- `KeyboardInterrupt` raised inside the coordinator's `try` block
(lines 253-256): record the interruption and set
`stop_generating_event`. -/
def interruptStep (s : St) : Option St :=
  match s.copc with
  | .loop => some { s with interrupted := true, stopGen := true, copc := .joinPhase }
  | .checkRes => some { s with interrupted := true, stopGen := true, copc := .joinPhase }
  | _ => none

/-- A scheduling choice: which concurrent task makes the next step.
`wtimeout i` is the nondeterministic firing of worker `i`'s
`password_queue.get` timeout; `interrupt` is an external
`KeyboardInterrupt`. -/
inductive Sched
  | gen
  | worker (i : Nat)
  | wtimeout (i : Nat)
  | coord
  | interrupt
  deriving DecidableEq

def step (cfg : Cfg) (s : St) : Sched → Option St
  | .gen => genStep cfg s
  | .worker i => workerStep cfg s i
  | .wtimeout i => wTimeoutStep cfg s i
  | .coord => coordStep cfg s
  | .interrupt => interruptStep s

/-- Run the machine under a given schedule; `none` if the schedule picks a
blocked task. -/
def exec (cfg : Cfg) : List Sched → St → Option St
  | [], s => some s
  | c :: cs, s =>
      match step cfg s c with
      | none => none
      | some s' => exec cfg cs s'

/-- A state is reachable if some schedule drives the freshly started system
to it. -/
def Reachable (cfg : Cfg) (s : St) : Prop :=
  ∃ l : List Sched, exec cfg l (initSt cfg) = some s

/-- Total search space of a configuration (`total_passwords_to_check`). -/
def totalP (cfg : Cfg) : Nat :=
  totalPasswords cfg.minLen cfg.maxLen cfg.charset.length

/-- Number of real candidates (non-sentinel entries) in a queue. -/
def qCandsL (pq : List (Option (List Char))) : Nat :=
  (pq.filter (fun x => x.isSome)).length

def qCands (s : St) : Nat := qCandsL s.pq

def batchSum (s : St) : Nat := (s.workers.map (fun w => w.batch.length)).sum

def pulledSum (s : St) : Nat := (s.workers.map (fun w => w.pulled)).sum

/-- Sum of every count ever pushed to the progress channel. -/
def reportedTotal (s : St) : Nat := (s.workers.map (fun w => w.reportedSum)).sum

/-- Number of verification-capability calls made so far across all
workers. -/
def verifiedTotal (s : St) : Nat := (s.workers.map (fun w => w.verifiedW)).sum

def progSum (s : St) : Nat := s.progq.sum

theorem genList_length (cfg : Cfg) : (genList cfg).length = totalP cfg :=
  length_generate_passwords cfg.minLen cfg.maxLen cfg.charset

theorem qCandsL_append_some (pq : List (Option (List Char))) (c : List Char) :
    qCandsL (pq ++ [some c]) = qCandsL pq + 1 := by
  simp [qCandsL, List.filter_append]

theorem qCandsL_append_none (pq : List (Option (List Char))) :
    qCandsL (pq ++ [none]) = qCandsL pq := by
  simp [qCandsL, List.filter_append]

theorem qCandsL_cons_some (pq : List (Option (List Char))) (c : List Char) :
    qCandsL (some c :: pq) = qCandsL pq + 1 := by
  simp [qCandsL, List.filter_cons]

theorem qCandsL_cons_none (pq : List (Option (List Char))) :
    qCandsL (none :: pq) = qCandsL pq := by
  simp [qCandsL, List.filter_cons]

theorem sum_map_set {α : Type} (f : α → Nat) :
    ∀ (l : List α) (i : Nat) {b : α} (a : α), l.get? i = some b →
    ((l.set i a).map f).sum + f b = (l.map f).sum + f a := by
  intro l
  induction l with
  | nil => intro i b a hb; simp at hb
  | cons x t ih =>
    intro i b a hb
    cases i with
    | zero =>
      simp only [List.get?_cons_zero, Option.some.injEq] at hb
      subst hb
      simp only [List.set_cons_zero, List.map_cons, List.sum_cons]
      omega
    | succ n =>
      simp only [List.get?_cons_succ] at hb
      have := ih n a hb
      simp only [List.set_cons_succ, List.map_cons, List.sum_cons]
      omega

theorem mem_of_mem_set {α : Type} :
    ∀ (l : List α) (i : Nat) (a x : α), x ∈ l.set i a → x ∈ l ∨ x = a := by
  intro l
  induction l with
  | nil => intro i a x hx; simp [List.set] at hx
  | cons y t ih =>
    intro i a x hx
    cases i with
    | zero =>
      rw [List.set_cons_zero] at hx
      rcases List.mem_cons.mp hx with rfl | hx
      · right; rfl
      · left; exact List.mem_cons_of_mem _ hx
    | succ n =>
      rw [List.set_cons_succ] at hx
      rcases List.mem_cons.mp hx with rfl | hx
      · left; exact List.mem_cons_self _ _
      · rcases ih n a x hx with h | h
        · left; exact List.mem_cons_of_mem _ h
        · right; exact h

theorem sum_map_split {α : Type} (f g h : α → Nat) :
    ∀ (l : List α), (∀ x ∈ l, f x = g x + h x) →
    (l.map f).sum = (l.map g).sum + (l.map h).sum := by
  intro l
  induction l with
  | nil => intro _; simp
  | cons x t ih =>
    intro hall
    simp only [List.map_cons, List.sum_cons]
    rw [hall x (by simp), ih (fun y hy => hall y (by simp [hy]))]
    omega

theorem allWorkersDead_iff (s : St) :
    allWorkersDead s = true ↔ ∀ w ∈ s.workers, w.pc = .wdead := by
  rw [allWorkersDead, List.all_eq_true]
  constructor
  · intro h w hw; exact beq_iff_eq.mp (h w hw)
  · intro h w hw; exact beq_iff_eq.mpr (h w hw)

/-- Per-worker control-point invariant tying the ghost counter
`verifiedBatch` to the position in the current batch. -/
def pcInv (w : WorkerSt) : Prop :=
  match w.pc with
  | .outer => w.batch = [] ∧ w.verifiedBatch = 0
  | .fill => w.verifiedBatch = 0
  | .proc j => w.verifiedBatch ≤ j ∧ j ≤ w.batch.length
  | .verifying j => w.verifiedBatch ≤ j ∧ j < w.batch.length
  | .report => w.verifiedBatch ≤ w.batch.length
  | .wdead => w.batch = [] ∧ w.verifiedBatch = 0

/-- Per-worker invariant: every pulled candidate is either already
reported or in the current batch, and verification calls are bounded by
reports plus the current batch progress. -/
def WInv (w : WorkerSt) : Prop :=
  w.pulled = w.reportedSum + w.batch.length ∧
  w.verifiedW ≤ w.reportedSum + w.verifiedBatch ∧
  pcInv w

theorem vb_le_batch {w : WorkerSt} (h : pcInv w) :
    w.verifiedBatch ≤ w.batch.length := by
  unfold pcInv at h
  cases hpc : w.pc <;> rw [hpc] at h
  · exact h.2 ▸ Nat.zero_le _
  · exact h ▸ Nat.zero_le _
  · omega
  · omega
  · exact h
  · exact h.2 ▸ Nat.zero_le _

def genPast : GenPC → Prop
  | .sentinels _ => True
  | .gdone => True
  | _ => False

def postLoopPC : CoPC → Prop
  | .loop => False
  | .checkRes => False
  | _ => True

def postJoinPC : CoPC → Prop
  | .drain => True
  | .collect => True
  | .drainRes => True
  | .finish => True
  | .cdone => True
  | _ => False

def latePC : CoPC → Prop
  | .collect => True
  | .drainRes => True
  | .finish => True
  | .cdone => True
  | _ => False

/-- Global inductive invariant of the machine.  Its fields tie together the
conservation of candidates (produced = in queue + pulled), the progress
accounting (coordinator counter + pending progress messages = everything
ever reported), provenance of the latch / result values, and the
shutdown-phase facts needed to settle the outcome claims. -/
structure SysInv (cfg : Cfg) (s : St) : Prop where
  gBound : s.gIdx ≤ totalP cfg
  conserve : qCands s + pulledSum s = s.gIdx
  workerInv : ∀ w ∈ s.workers, WInv w
  progAcct : s.processed + progSum s = reportedTotal s
  pushLt : s.gen = .pushCand → s.gIdx < totalP cfg
  genDone : genPast s.gen → s.stopGen = false → s.gIdx = totalP cfg
  stopReason : s.stopGen = true → s.interrupted = true ∨ s.found = true
  resFound : s.resq ≠ [] → s.found = true
  pwFound : s.foundPw ≠ none → s.found = true
  foundVerified : s.found = true → 1 ≤ verifiedTotal s
  joinDead : postJoinPC s.copc → allWorkersDead s = true ∧ s.gen = .gdone
  postLoopQuiet : postLoopPC s.copc → s.found = false → s.interrupted = false →
    s.processed + progSum s = totalP cfg ∧ qCands s = 0 ∧ batchSum s = 0 ∧
    s.gIdx = totalP cfg
  lateProg : latePC s.copc → progSum s = 0
  outFound : ∀ pw c, s.outcome = some (.passwordFound pw c) →
    s.found = true ∧ c = s.processed
  outInt : ∀ c, s.outcome = some (.crackingInterrupted c) →
    s.interrupted = true ∧ c = s.processed ∧ c ≤ totalP cfg
  outNF : ∀ c, s.outcome = some (.passwordNotFound c) →
    c = s.processed ∧ c ≤ totalP cfg ∧
    (s.found = false → s.interrupted = false →
      c = totalP cfg ∧ reportedTotal s = totalP cfg)
  outIntOnly : ∀ o, s.outcome = some o → s.interrupted = true →
    o = .crackingInterrupted s.processed
  outDone : s.outcome.isSome = true → s.copc = .cdone
  logOk : ∀ rv ∈ s.reportLog, rv.2 ≤ rv.1

theorem reportedTotal_le_pulledSum {cfg : Cfg} {s : St} (hI : SysInv cfg s) :
    reportedTotal s ≤ pulledSum s := by
  refine List.sum_le_sum (fun w hw => ?_)
  have := (hI.workerInv w hw).1
  omega

theorem pulled_split {cfg : Cfg} {s : St} (hI : SysInv cfg s) :
    pulledSum s = reportedTotal s + batchSum s := by
  exact sum_map_split _ _ _ s.workers (fun w hw => (hI.workerInv w hw).1)

theorem verifiedTotal_le_pulledSum {cfg : Cfg} {s : St} (hI : SysInv cfg s) :
    verifiedTotal s ≤ pulledSum s := by
  refine List.sum_le_sum (fun w hw => ?_)
  obtain ⟨h1, h2, h3⟩ := hI.workerInv w hw
  have := vb_le_batch h3
  omega

theorem verifiedTotal_le_totalP {cfg : Cfg} {s : St} (hI : SysInv cfg s) :
    verifiedTotal s ≤ totalP cfg := by
  have h1 := verifiedTotal_le_pulledSum hI
  have h2 := hI.conserve
  have h3 := hI.gBound
  omega

theorem processed_le_totalP {cfg : Cfg} {s : St} (hI : SysInv cfg s) :
    s.processed ≤ totalP cfg := by
  have h1 := hI.progAcct
  have h2 := reportedTotal_le_pulledSum hI
  have h3 := hI.conserve
  have h4 := hI.gBound
  omega

theorem batch_nil_of_batchSum_zero {s : St} (h : batchSum s = 0) :
    ∀ w ∈ s.workers, w.batch = [] := by
  intro w hw
  rw [batchSum, List.sum_eq_zero_iff] at h
  have := h (w.batch.length) (List.mem_map_of_mem _ hw)
  exact List.eq_nil_of_length_eq_zero this

theorem batchSum_zero_of_allDead {cfg : Cfg} {s : St} (hI : SysInv cfg s)
    (h : allWorkersDead s = true) : batchSum s = 0 := by
  rw [batchSum, List.sum_eq_zero_iff]
  intro x hx
  rw [List.mem_map] at hx
  obtain ⟨w, hw, rfl⟩ := hx
  have hdead := (allWorkersDead_iff s).mp h w hw
  have hpc := (hI.workerInv w hw).2.2
  unfold pcInv at hpc
  rw [hdead] at hpc
  rw [hpc.1]
  rfl

theorem inv_init (cfg : Cfg) : SysInv cfg (initSt cfg) := by
  refine ⟨?_, ?_, ?_, ?_, ?_, ?_, ?_, ?_, ?_, ?_, ?_, ?_, ?_, ?_, ?_, ?_, ?_, ?_, ?_⟩
  · simp [initSt]
  · simp [initSt, qCands, qCandsL, pulledSum]
    induction cfg.numProcesses with
    | zero => simp
    | succ n ih => simp [List.replicate_succ, initWorker]
  · intro w hw
    rw [initSt] at hw
    simp only [List.mem_replicate] at hw
    rw [hw.2]
    exact ⟨rfl, by simp [initWorker], by simp [initWorker, pcInv]⟩
  · simp [initSt, progSum, reportedTotal]
    induction cfg.numProcesses with
    | zero => simp
    | succ n ih => simp [List.replicate_succ, initWorker]
  · intro h; simp [initSt] at h
  · intro h; simp [initSt, genPast] at h
  · intro h; simp [initSt] at h
  · intro h; simp [initSt] at h
  · intro h; simp [initSt] at h
  · intro h; simp [initSt] at h
  · intro h; simp [initSt, postJoinPC] at h
  · intro h; simp [initSt, postLoopPC] at h
  · intro h; simp [initSt, latePC] at h
  · intro pw c h; simp [initSt] at h
  · intro c h; simp [initSt] at h
  · intro c h; simp [initSt] at h
  · intro o h; simp [initSt] at h
  · intro h; simp [initSt] at h
  · intro rv h; simp [initSt] at h

theorem outcome_none_of_not_cdone {cfg : Cfg} {s : St} (hI : SysInv cfg s)
    (h : s.copc ≠ .cdone) : s.outcome = none := by
  cases ho : s.outcome with
  | none => rfl
  | some o => exact absurd (hI.outDone (by rw [ho]; rfl)) h

theorem inv_interruptStep {cfg : Cfg} {s s' : St}
    (h : interruptStep s = some s') (hI : SysInv cfg s) : SysInv cfg s' := by
  rw [interruptStep] at h
  cases hc : s.copc <;> rw [hc] at h <;> cases h
  all_goals have hout : s.outcome = none :=
    outcome_none_of_not_cdone hI (by rw [hc]; simp)
  all_goals
    refine ⟨hI.gBound, hI.conserve, hI.workerInv, hI.progAcct, hI.pushLt,
      fun _ hs => by simp at hs,
      fun _ => Or.inl rfl,
      hI.resFound, hI.pwFound, hI.foundVerified,
      fun hp => by simp [postJoinPC] at hp,
      fun _ _ hi => by simp at hi,
      fun hp => by simp [latePC] at hp,
      fun pw c hc2 => by simp [hout] at hc2,
      fun c hc2 => by simp [hout] at hc2,
      fun c hc2 => by simp [hout] at hc2,
      fun o hc2 => by simp [hout] at hc2,
      fun hc2 => by simp [hout] at hc2,
      hI.logOk⟩

theorem no_outcome_elim {X : St} {C : Prop} (h : X.outcome = none) {o : Outc}
    (hc : X.outcome = some o) : C := by rw [h] at hc; cases hc

theorem no_outcome_isSome {X : St} {C : Prop} (h : X.outcome = none)
    (hc : X.outcome.isSome = true) : C := by rw [h] at hc; simp at hc

theorem inv_genStep {cfg : Cfg} {s s' : St}
    (h : genStep cfg s = some s') (hI : SysInv cfg s) : SysInv cfg s' := by
  rw [genStep] at h
  have hnpj : ¬ postJoinPC s.copc := by
    intro hp
    rw [(hI.joinDead hp).2] at h
    simp at h
  have hout : s.outcome = none := by
    refine outcome_none_of_not_cdone hI (fun hcd => hnpj ?_)
    rw [hcd]; simp [postJoinPC]
  split at h
  -- generator at the stop-check (`while not stop_generating_event.is_set()`)
  next hg =>
    split at h
    next hst =>
      cases h
      refine ⟨hI.gBound, hI.conserve, hI.workerInv, hI.progAcct,
        fun hp => by simp at hp,
        fun _ hs => by simp [hst] at hs,
        hI.stopReason, hI.resFound, hI.pwFound, hI.foundVerified,
        fun hp => absurd hp hnpj,
        hI.postLoopQuiet, hI.lateProg,
        fun pw c hc2 => no_outcome_elim hout hc2,
        fun c hc2 => no_outcome_elim hout hc2,
        fun c hc2 => no_outcome_elim hout hc2,
        fun o hc2 => no_outcome_elim hout hc2,
        fun hc2 => no_outcome_isSome hout hc2,
        hI.logOk⟩
    next hst =>
      split at h
      next hlt =>
        cases h
        refine ⟨hI.gBound, hI.conserve, hI.workerInv, hI.progAcct,
          fun _ => ?_,
          fun hp => by simp [genPast] at hp,
          hI.stopReason, hI.resFound, hI.pwFound, hI.foundVerified,
          fun hp => absurd hp hnpj,
          hI.postLoopQuiet, hI.lateProg,
          fun pw c hc2 => no_outcome_elim hout hc2,
          fun c hc2 => no_outcome_elim hout hc2,
          fun c hc2 => no_outcome_elim hout hc2,
          fun o hc2 => no_outcome_elim hout hc2,
          fun hc2 => no_outcome_isSome hout hc2,
          hI.logOk⟩
        show s.gIdx < totalP cfg
        rw [← genList_length cfg]
        exact hlt
      next hlt =>
        cases h
        refine ⟨hI.gBound, hI.conserve, hI.workerInv, hI.progAcct,
          fun hp => by simp at hp,
          fun _ _ => ?_,
          hI.stopReason, hI.resFound, hI.pwFound, hI.foundVerified,
          fun hp => absurd hp hnpj,
          hI.postLoopQuiet, hI.lateProg,
          fun pw c hc2 => no_outcome_elim hout hc2,
          fun c hc2 => no_outcome_elim hout hc2,
          fun c hc2 => no_outcome_elim hout hc2,
          fun o hc2 => no_outcome_elim hout hc2,
          fun hc2 => no_outcome_isSome hout hc2,
          hI.logOk⟩
        show s.gIdx = totalP cfg
        have h1 := hI.gBound
        rw [genList_length cfg] at hlt
        omega
  -- generator blocked-or-pushing one candidate
  next hg =>
    split at h
    next hroom =>
      cases h
      have hcons := hI.conserve
      simp only [qCands] at hcons
      have hpush := hI.pushLt hg
      refine ⟨?_, ?_, hI.workerInv, hI.progAcct,
        fun hp => by simp at hp,
        fun hp => by simp [genPast] at hp,
        hI.stopReason, hI.resFound, hI.pwFound, hI.foundVerified,
        fun hp => absurd hp hnpj,
        fun hp hf hi => absurd (hI.postLoopQuiet hp hf hi).2.2.2 (by omega),
        hI.lateProg,
        fun pw c hc2 => no_outcome_elim hout hc2,
        fun c hc2 => no_outcome_elim hout hc2,
        fun c hc2 => no_outcome_elim hout hc2,
        fun o hc2 => no_outcome_elim hout hc2,
        fun hc2 => no_outcome_isSome hout hc2,
        hI.logOk⟩
      · show s.gIdx + 1 ≤ totalP cfg
        omega
      · show qCandsL (s.pq ++ [some ((genList cfg).getD s.gIdx [])]) + pulledSum s
          = s.gIdx + 1
        rw [qCandsL_append_some]
        omega
    next => cases h
  -- generator pushing one of the remaining sentinels
  next k hg =>
    split at h
    next hroom =>
      cases h
      have hcons := hI.conserve
      simp only [qCands] at hcons
      refine ⟨hI.gBound, ?_, hI.workerInv, hI.progAcct,
        fun hp => by simp at hp,
        fun _ hs => hI.genDone (by rw [hg]; simp [genPast]) hs,
        hI.stopReason, hI.resFound, hI.pwFound, hI.foundVerified,
        fun hp => absurd hp hnpj,
        fun hp hf hi => ?_,
        hI.lateProg,
        fun pw c hc2 => no_outcome_elim hout hc2,
        fun c hc2 => no_outcome_elim hout hc2,
        fun c hc2 => no_outcome_elim hout hc2,
        fun o hc2 => no_outcome_elim hout hc2,
        fun hc2 => no_outcome_isSome hout hc2,
        hI.logOk⟩
      · show qCandsL (s.pq ++ [none]) + pulledSum s = s.gIdx
        rw [qCandsL_append_none]
        exact hcons
      · obtain ⟨h1, h2, h3, h4⟩ := hI.postLoopQuiet hp hf hi
        refine ⟨h1, ?_, h3, h4⟩
        show qCandsL (s.pq ++ [none]) = 0
        rw [qCandsL_append_none]
        exact h2
    next => cases h
  -- generator done pushing sentinels: process exit
  next hg =>
    cases h
    refine ⟨hI.gBound, hI.conserve, hI.workerInv, hI.progAcct,
      fun hp => by simp at hp,
      fun _ hs => hI.genDone (by rw [hg]; simp [genPast]) hs,
      hI.stopReason, hI.resFound, hI.pwFound, hI.foundVerified,
      fun hp => absurd hp hnpj,
      hI.postLoopQuiet, hI.lateProg,
      fun pw c hc2 => no_outcome_elim hout hc2,
      fun c hc2 => no_outcome_elim hout hc2,
      fun c hc2 => no_outcome_elim hout hc2,
      fun o hc2 => no_outcome_elim hout hc2,
      fun hc2 => no_outcome_isSome hout hc2,
      hI.logOk⟩
  -- generator already dead: no step
  next => cases h

theorem truthy_ne_none {x : Option (List Char)} (h : truthy x = true) : x ≠ none := by
  cases x with
  | none => simp [truthy] at h
  | some v => simp

theorem inv_coordStep {cfg : Cfg} {s s' : St}
    (h : coordStep cfg s = some s') (hI : SysInv cfg s) : SysInv cfg s' := by
  rw [coordStep] at h
  split at h
  -- coordinator at the polling-loop header
  next hc =>
    have hout : s.outcome = none :=
      outcome_none_of_not_cdone hI (by rw [hc]; simp)
    split at h
    next hcond =>
      split at h
      -- a progress report is available: add it, then check the result queue
      next p rest hpq =>
        cases h
        refine ⟨hI.gBound, hI.conserve, hI.workerInv, ?_,
          hI.pushLt, hI.genDone, hI.stopReason, hI.resFound, hI.pwFound,
          hI.foundVerified,
          fun hp => by simp [postJoinPC] at hp,
          fun hp => by simp [postLoopPC] at hp,
          fun hp => by simp [latePC] at hp,
          fun pw c hc2 => no_outcome_elim hout hc2,
          fun c hc2 => no_outcome_elim hout hc2,
          fun c hc2 => no_outcome_elim hout hc2,
          fun o hc2 => no_outcome_elim hout hc2,
          fun hc2 => no_outcome_isSome hout hc2,
          hI.logOk⟩
        show s.processed + p + rest.sum = reportedTotal s
        have hpa := hI.progAcct
        have hps : progSum s = p + rest.sum := by rw [progSum, hpq, List.sum_cons]
        omega
      -- progress queue empty: `queue.Empty`, maybe break out of the loop
      next hpq =>
        split at h
        next hbrk =>
          cases h
          obtain ⟨hgd, hpqe, hdead⟩ := hbrk
          refine ⟨hI.gBound, hI.conserve, hI.workerInv, hI.progAcct,
            hI.pushLt, hI.genDone, hI.stopReason, hI.resFound, hI.pwFound,
            hI.foundVerified,
            fun hp => by simp [postJoinPC] at hp,
            fun _ hf hi => ?_,
            fun hp => by simp [latePC] at hp,
            fun pw c hc2 => no_outcome_elim hout hc2,
            fun c hc2 => no_outcome_elim hout hc2,
            fun c hc2 => no_outcome_elim hout hc2,
            fun o hc2 => no_outcome_elim hout hc2,
            fun hc2 => no_outcome_isSome hout hc2,
            hI.logOk⟩
          have hf' : s.found = false := hf
          have hi' : s.interrupted = false := hi
          have hsg : s.stopGen = false := by
            cases hsg : s.stopGen
            · rfl
            · rcases hI.stopReason hsg with h1 | h1
              · rw [h1] at hi'; cases hi'
              · rw [h1] at hf'; cases hf'
          have hgix : s.gIdx = totalP cfg :=
            hI.genDone (by rw [hgd]; simp [genPast]) hsg
          have hbz : batchSum s = 0 := batchSum_zero_of_allDead hI hdead
          have hq0 : qCands s = 0 := by simp [qCands, hpqe, qCandsL]
          have hcons := hI.conserve
          have hps := pulled_split hI
          have hpa := hI.progAcct
          refine ⟨?_, hq0, hbz, hgix⟩
          show s.processed + progSum s = totalP cfg
          omega
        -- nothing to do yet: the `continue`
        next =>
          cases h
          exact hI
    -- loop condition failed: leave the polling loop
    next hcond =>
      cases h
      refine ⟨hI.gBound, hI.conserve, hI.workerInv, hI.progAcct,
        hI.pushLt, hI.genDone, hI.stopReason, hI.resFound, hI.pwFound,
        hI.foundVerified,
        fun hp => by simp [postJoinPC] at hp,
        fun _ hf hi => ?_,
        fun hp => by simp [latePC] at hp,
        fun pw c hc2 => no_outcome_elim hout hc2,
        fun c hc2 => no_outcome_elim hout hc2,
        fun c hc2 => no_outcome_elim hout hc2,
        fun o hc2 => no_outcome_elim hout hc2,
        fun hc2 => no_outcome_isSome hout hc2,
        hI.logOk⟩
      have hf' : s.found = false := hf
      have hge : ¬ (s.processed < totalP cfg) := fun hlt => hcond ⟨hlt, hf'⟩
      have hpa := hI.progAcct
      have hrl := reportedTotal_le_pulledSum hI
      have hcons := hI.conserve
      have hgb := hI.gBound
      have hps := pulled_split hI
      refine ⟨?_, ?_, ?_, ?_⟩
      · show s.processed + progSum s = totalP cfg
        omega
      · show qCands s = 0
        omega
      · show batchSum s = 0
        omega
      · show s.gIdx = totalP cfg
        omega
  -- coordinator checking the result queue
  next hc =>
    have hout : s.outcome = none :=
      outcome_none_of_not_cdone hI (by rw [hc]; simp)
    split at h
    next r rest hres =>
      have hfnd : s.found = true :=
        hI.resFound (by rw [hres]; exact List.cons_ne_nil _ _)
      split at h
      next hemp =>
        cases h
        refine ⟨hI.gBound, hI.conserve, hI.workerInv, hI.progAcct,
          hI.pushLt, hI.genDone, hI.stopReason,
          fun _ => hfnd, fun _ => hfnd, hI.foundVerified,
          fun hp => by simp [postJoinPC] at hp,
          fun hp => by simp [postLoopPC] at hp,
          fun hp => by simp [latePC] at hp,
          fun pw c hc2 => no_outcome_elim hout hc2,
          fun c hc2 => no_outcome_elim hout hc2,
          fun c hc2 => no_outcome_elim hout hc2,
          fun o hc2 => no_outcome_elim hout hc2,
          fun hc2 => no_outcome_isSome hout hc2,
          hI.logOk⟩
      next hemp =>
        cases h
        refine ⟨hI.gBound, hI.conserve, hI.workerInv, hI.progAcct,
          hI.pushLt,
          fun _ hs => by simp at hs,
          fun _ => Or.inr rfl,
          fun _ => rfl, fun _ => rfl,
          fun _ => hI.foundVerified hfnd,
          fun hp => by simp [postJoinPC] at hp,
          fun hp => by simp [postLoopPC] at hp,
          fun hp => by simp [latePC] at hp,
          fun pw c hc2 => no_outcome_elim hout hc2,
          fun c hc2 => no_outcome_elim hout hc2,
          fun c hc2 => no_outcome_elim hout hc2,
          fun o hc2 => no_outcome_elim hout hc2,
          fun hc2 => no_outcome_isSome hout hc2,
          hI.logOk⟩
    next hres =>
      cases h
      refine ⟨hI.gBound, hI.conserve, hI.workerInv, hI.progAcct,
        hI.pushLt, hI.genDone, hI.stopReason, hI.resFound, hI.pwFound,
        hI.foundVerified,
        fun hp => by simp [postJoinPC] at hp,
        fun hp => by simp [postLoopPC] at hp,
        fun hp => by simp [latePC] at hp,
        fun pw c hc2 => no_outcome_elim hout hc2,
        fun c hc2 => no_outcome_elim hout hc2,
        fun c hc2 => no_outcome_elim hout hc2,
        fun o hc2 => no_outcome_elim hout hc2,
        fun hc2 => no_outcome_isSome hout hc2,
        hI.logOk⟩
  -- coordinator joining all processes (blocking joins)
  next hc =>
    have hout : s.outcome = none :=
      outcome_none_of_not_cdone hI (by rw [hc]; simp)
    split at h
    next hj =>
      cases h
      refine ⟨hI.gBound, hI.conserve, hI.workerInv, hI.progAcct,
        hI.pushLt, hI.genDone, hI.stopReason, hI.resFound, hI.pwFound,
        hI.foundVerified,
        fun _ => hj,
        fun _ hf hi => hI.postLoopQuiet (by rw [hc]; simp [postLoopPC]) hf hi,
        fun hp => by simp [latePC] at hp,
        fun pw c hc2 => no_outcome_elim hout hc2,
        fun c hc2 => no_outcome_elim hout hc2,
        fun c hc2 => no_outcome_elim hout hc2,
        fun o hc2 => no_outcome_elim hout hc2,
        fun hc2 => no_outcome_isSome hout hc2,
        hI.logOk⟩
    next => cases h
  -- coordinator in the final progress drain
  next hc =>
    have hout : s.outcome = none :=
      outcome_none_of_not_cdone hI (by rw [hc]; simp)
    split at h
    next p rest hpq =>
      cases h
      refine ⟨hI.gBound, hI.conserve, hI.workerInv, ?_,
        hI.pushLt, hI.genDone, hI.stopReason, hI.resFound, hI.pwFound,
        hI.foundVerified,
        fun _ => hI.joinDead (by rw [hc]; simp [postJoinPC]),
        fun _ hf hi => ?_,
        fun hp => by simp [latePC, hc] at hp,
        fun pw c hc2 => no_outcome_elim hout hc2,
        fun c hc2 => no_outcome_elim hout hc2,
        fun c hc2 => no_outcome_elim hout hc2,
        fun o hc2 => no_outcome_elim hout hc2,
        fun hc2 => no_outcome_isSome hout hc2,
        hI.logOk⟩
      · show s.processed + p + rest.sum = reportedTotal s
        have hpa := hI.progAcct
        have hps : progSum s = p + rest.sum := by rw [progSum, hpq, List.sum_cons]
        omega
      · obtain ⟨h1, h2, h3, h4⟩ :=
          hI.postLoopQuiet (by rw [hc]; simp [postLoopPC]) hf hi
        refine ⟨?_, h2, h3, h4⟩
        show s.processed + p + rest.sum = totalP cfg
        have hps : progSum s = p + rest.sum := by rw [progSum, hpq, List.sum_cons]
        omega
    next hpq =>
      cases h
      refine ⟨hI.gBound, hI.conserve, hI.workerInv, hI.progAcct,
        hI.pushLt, hI.genDone, hI.stopReason, hI.resFound, hI.pwFound,
        hI.foundVerified,
        fun _ => hI.joinDead (by rw [hc]; simp [postJoinPC]),
        fun _ hf hi => hI.postLoopQuiet (by rw [hc]; simp [postLoopPC]) hf hi,
        fun _ => by show progSum s = 0; rw [progSum, hpq]; rfl,
        fun pw c hc2 => no_outcome_elim hout hc2,
        fun c hc2 => no_outcome_elim hout hc2,
        fun c hc2 => no_outcome_elim hout hc2,
        fun o hc2 => no_outcome_elim hout hc2,
        fun hc2 => no_outcome_isSome hout hc2,
        hI.logOk⟩
  -- coordinator at `if not found_password`
  next hc =>
    have hout : s.outcome = none :=
      outcome_none_of_not_cdone hI (by rw [hc]; simp)
    split at h <;> cases h <;>
      exact ⟨hI.gBound, hI.conserve, hI.workerInv, hI.progAcct,
        hI.pushLt, hI.genDone, hI.stopReason, hI.resFound, hI.pwFound,
        hI.foundVerified,
        fun _ => hI.joinDead (by rw [hc]; simp [postJoinPC]),
        fun _ hf hi => hI.postLoopQuiet (by rw [hc]; simp [postLoopPC]) hf hi,
        fun _ => hI.lateProg (by rw [hc]; simp [latePC]),
        fun pw c hc2 => no_outcome_elim hout hc2,
        fun c hc2 => no_outcome_elim hout hc2,
        fun c hc2 => no_outcome_elim hout hc2,
        fun o hc2 => no_outcome_elim hout hc2,
        fun hc2 => no_outcome_isSome hout hc2,
        hI.logOk⟩
  -- coordinator draining the result queue into found_password
  next hc =>
    have hout : s.outcome = none :=
      outcome_none_of_not_cdone hI (by rw [hc]; simp)
    split at h
    next r rest hres =>
      cases h
      have hfnd : s.found = true :=
        hI.resFound (by rw [hres]; exact List.cons_ne_nil _ _)
      refine ⟨hI.gBound, hI.conserve, hI.workerInv, hI.progAcct,
        hI.pushLt, hI.genDone, hI.stopReason,
        fun _ => hfnd, fun _ => hfnd, hI.foundVerified,
        fun _ => hI.joinDead (by rw [hc]; simp [postJoinPC]),
        fun _ hf hi => hI.postLoopQuiet (by rw [hc]; simp [postLoopPC]) hf hi,
        fun _ => hI.lateProg (by rw [hc]; simp [latePC]),
        fun pw c hc2 => no_outcome_elim hout hc2,
        fun c hc2 => no_outcome_elim hout hc2,
        fun c hc2 => no_outcome_elim hout hc2,
        fun o hc2 => no_outcome_elim hout hc2,
        fun hc2 => no_outcome_isSome hout hc2,
        hI.logOk⟩
    next hres =>
      cases h
      exact ⟨hI.gBound, hI.conserve, hI.workerInv, hI.progAcct,
        hI.pushLt, hI.genDone, hI.stopReason, hI.resFound, hI.pwFound,
        hI.foundVerified,
        fun _ => hI.joinDead (by rw [hc]; simp [postJoinPC]),
        fun _ hf hi => hI.postLoopQuiet (by rw [hc]; simp [postLoopPC]) hf hi,
        fun _ => hI.lateProg (by rw [hc]; simp [latePC]),
        fun pw c hc2 => no_outcome_elim hout hc2,
        fun c hc2 => no_outcome_elim hout hc2,
        fun c hc2 => no_outcome_elim hout hc2,
        fun o hc2 => no_outcome_elim hout hc2,
        fun hc2 => no_outcome_isSome hout hc2,
        hI.logOk⟩
  -- coordinator constructing the final outcome
  next hc =>
    cases h
    refine ⟨hI.gBound, hI.conserve, hI.workerInv, hI.progAcct,
      hI.pushLt, hI.genDone, hI.stopReason, hI.resFound, hI.pwFound,
      hI.foundVerified,
      fun _ => hI.joinDead (by rw [hc]; simp [postJoinPC]),
      fun _ hf hi => hI.postLoopQuiet (by rw [hc]; simp [postLoopPC]) hf hi,
      fun _ => hI.lateProg (by rw [hc]; simp [latePC]),
      ?_, ?_, ?_, ?_, fun _ => rfl, hI.logOk⟩
    · intro pw c hc2
      simp only [Option.some.injEq] at hc2
      by_cases hint : s.interrupted = true
      · rw [if_pos hint] at hc2; cases hc2
      · rw [if_neg hint] at hc2
        by_cases htr : truthy s.foundPw = true
        · rw [if_pos htr] at hc2
          injection hc2 with h1 h2
          exact ⟨hI.pwFound (truthy_ne_none htr), h2.symm⟩
        · rw [if_neg htr] at hc2; cases hc2
    · intro c hc2
      simp only [Option.some.injEq] at hc2
      by_cases hint : s.interrupted = true
      · rw [if_pos hint] at hc2
        injection hc2 with h1
        exact ⟨hint, h1.symm, h1 ▸ processed_le_totalP hI⟩
      · rw [if_neg hint] at hc2
        by_cases htr : truthy s.foundPw = true
        · rw [if_pos htr] at hc2; cases hc2
        · rw [if_neg htr] at hc2; cases hc2
    · intro c hc2
      simp only [Option.some.injEq] at hc2
      by_cases hint : s.interrupted = true
      · rw [if_pos hint] at hc2; cases hc2
      · rw [if_neg hint] at hc2
        by_cases htr : truthy s.foundPw = true
        · rw [if_pos htr] at hc2; cases hc2
        · rw [if_neg htr] at hc2
          injection hc2 with h1
          refine ⟨h1.symm, h1 ▸ processed_le_totalP hI, fun hf hi => ?_⟩
          obtain ⟨h2, _, _, _⟩ :=
            hI.postLoopQuiet (by rw [hc]; simp [postLoopPC]) hf hi
          have h3 : progSum s = 0 := hI.lateProg (by rw [hc]; simp [latePC])
          have h4 := hI.progAcct
          constructor
          · omega
          · show reportedTotal s = totalP cfg
            omega
    · intro o hc2 hi2
      simp only [Option.some.injEq] at hc2
      have hi' : s.interrupted = true := hi2
      rw [if_pos hi'] at hc2
      exact hc2.symm
  -- coordinator already done: no step
  next => cases h

theorem postJoin_of_late {c : CoPC} (h : latePC c) : postJoinPC c := by
  cases c
  case loop => exact False.elim h
  case checkRes => exact False.elim h
  case joinPhase => exact False.elim h
  case drain => trivial
  case collect => trivial
  case drainRes => trivial
  case finish => trivial
  case cdone => trivial

def deadWorker (w : WorkerSt) : WorkerSt :=
  { w with pc := WPC.wdead, batch := [], verifiedBatch := 0 }

theorem deadWorker_pulled (w : WorkerSt) : (deadWorker w).pulled = w.pulled := rfl

theorem deadWorker_reportedSum (w : WorkerSt) :
    (deadWorker w).reportedSum = w.reportedSum := rfl

theorem deadWorker_verifiedW (w : WorkerSt) : (deadWorker w).verifiedW = w.verifiedW := rfl

theorem deadWorker_batch (w : WorkerSt) : (deadWorker w).batch = [] := rfl

theorem wExit_empty (s : St) (i : Nat) (w : WorkerSt) (hb : w.batch = []) :
    wExit s i w = { s with workers := s.workers.set i (deadWorker w) } := by
  rw [wExit, deadWorker]
  simp [hb]

theorem inv_wTimeoutStep {cfg : Cfg} {s s' : St} {i : Nat}
    (h : wTimeoutStep cfg s i = some s') (hI : SysInv cfg s) : SysInv cfg s' := by
  rw [wTimeoutStep] at h
  split at h
  next => cases h
  next w hw =>
    split at h
    next hpc =>
      have hwmem : w ∈ s.workers := List.get?_mem hw
      obtain ⟨hw1, hw2, hw3⟩ := hI.workerInv w hwmem
      have hvb : w.verifiedBatch = 0 := by
        have := hw3; unfold pcInv at this; rw [hpc] at this; exact this
      have hnpj : ¬ postJoinPC s.copc := by
        intro hp
        have hdead := (allWorkersDead_iff s).mp (hI.joinDead hp).1 w hwmem
        rw [hpc] at hdead
        exact absurd hdead (by simp)
      have hout : s.outcome = none :=
        outcome_none_of_not_cdone hI (fun hcd => hnpj (by rw [hcd]; trivial))
      split at h
      next hguard =>
        obtain ⟨hlt, hpqe⟩ := hguard
        split at h
        -- empty batch: the worker exits via the `return` of line 338
        next hbe =>
          cases h
          have hbn : w.batch = [] := by
            simpa using hbe
          rw [wExit_empty s i w hbn]
          have hpull := sum_map_set (fun x => x.pulled) s.workers i (deadWorker w) hw
          have hrep := sum_map_set (fun x => x.reportedSum) s.workers i (deadWorker w) hw
          have hver := sum_map_set (fun x => x.verifiedW) s.workers i (deadWorker w) hw
          have hbat := sum_map_set (fun x => x.batch.length) s.workers i (deadWorker w) hw
          simp only [deadWorker_pulled, deadWorker_reportedSum, deadWorker_verifiedW,
            deadWorker_batch, List.length_nil] at hpull hrep hver hbat
          have hbl : w.batch.length = 0 := by rw [hbn]; rfl
          refine ⟨hI.gBound, ?_, ?_, ?_,
            hI.pushLt, hI.genDone, hI.stopReason, hI.resFound, hI.pwFound,
            ?_,
            fun hp => absurd hp hnpj,
            fun hp hf hi => ?_,
            hI.lateProg,
            fun pw c hc2 => no_outcome_elim hout hc2,
            fun c hc2 => no_outcome_elim hout hc2,
            fun c hc2 => no_outcome_elim hout hc2,
            fun o hc2 => no_outcome_elim hout hc2,
            fun hc2 => no_outcome_isSome hout hc2,
            hI.logOk⟩
          · have hcons := hI.conserve
            simp only [qCands, pulledSum] at hcons ⊢
            omega
          · intro x hx
            rcases mem_of_mem_set _ _ _ _ hx with hxl | rfl
            · exact hI.workerInv x hxl
            · refine ⟨?_, ?_, ?_⟩
              · show w.pulled = w.reportedSum + ([] : List (List Char)).length
                simp only [List.length_nil]
                rw [hbn] at hw1
                simpa using hw1
              · show w.verifiedW ≤ w.reportedSum + 0
                omega
              · show ([] : List (List Char)) = [] ∧ 0 = 0
                exact ⟨rfl, rfl⟩
          · have hpa := hI.progAcct
            simp only [progSum, reportedTotal] at hpa ⊢
            omega
          · intro hf
            have h1 := hI.foundVerified hf
            simp only [verifiedTotal] at h1 ⊢
            omega
          · obtain ⟨h1, h2, h3, h4⟩ := hI.postLoopQuiet hp hf hi
            refine ⟨h1, h2, ?_, h4⟩
            simp only [batchSum] at h3 ⊢
            omega
        -- non-empty batch: process the partial batch
        next hbe =>
          cases h
          have hpull := sum_map_set (fun x => x.pulled) s.workers i
            { w with pc := WPC.proc 0 } hw
          have hrep := sum_map_set (fun x => x.reportedSum) s.workers i
            { w with pc := WPC.proc 0 } hw
          have hver := sum_map_set (fun x => x.verifiedW) s.workers i
            { w with pc := WPC.proc 0 } hw
          have hbat := sum_map_set (fun x => x.batch.length) s.workers i
            { w with pc := WPC.proc 0 } hw
          simp only at hpull hrep hver hbat
          refine ⟨hI.gBound, ?_, ?_, ?_,
            hI.pushLt, hI.genDone, hI.stopReason, hI.resFound, hI.pwFound,
            ?_,
            fun hp => absurd hp hnpj,
            fun hp hf hi => ?_,
            hI.lateProg,
            fun pw c hc2 => no_outcome_elim hout hc2,
            fun c hc2 => no_outcome_elim hout hc2,
            fun c hc2 => no_outcome_elim hout hc2,
            fun o hc2 => no_outcome_elim hout hc2,
            fun hc2 => no_outcome_isSome hout hc2,
            hI.logOk⟩
          · have hcons := hI.conserve
            simp only [qCands, pulledSum] at hcons ⊢
            omega
          · intro x hx
            rcases mem_of_mem_set _ _ _ _ hx with hxl | rfl
            · exact hI.workerInv x hxl
            · refine ⟨hw1, hw2, ?_⟩
              show w.verifiedBatch ≤ 0 ∧ 0 ≤ w.batch.length
              omega
          · have hpa := hI.progAcct
            simp only [progSum, reportedTotal] at hpa ⊢
            omega
          · intro hf
            have h1 := hI.foundVerified hf
            simp only [verifiedTotal] at h1 ⊢
            omega
          · obtain ⟨h1, h2, h3, h4⟩ := hI.postLoopQuiet hp hf hi
            refine ⟨h1, h2, ?_, h4⟩
            simp only [batchSum] at h3 ⊢
            omega
      next => cases h
    next => cases h

theorem inv_workerStep {cfg : Cfg} {s s' : St} {i : Nat}
    (h : workerStep cfg s i = some s') (hI : SysInv cfg s) : SysInv cfg s' := by
  rw [workerStep] at h
  split at h
  next => cases h
  next w hw =>
    have hwmem : w ∈ s.workers := List.get?_mem hw
    obtain ⟨hw1, hw2, hw3⟩ := hI.workerInv w hwmem
    split at h
    -- worker at the outer `while not found_event.is_set()` check
    next hpc =>
      have hbvb : w.batch = [] ∧ w.verifiedBatch = 0 := by
        have := hw3; unfold pcInv at this; rw [hpc] at this; exact this
      have hnpj : ¬ postJoinPC s.copc := by
        intro hp
        have hdead := (allWorkersDead_iff s).mp (hI.joinDead hp).1 w hwmem
        rw [hpc] at hdead
        exact absurd hdead (by simp)
      have hout : s.outcome = none :=
        outcome_none_of_not_cdone hI (fun hcd => hnpj (by rw [hcd]; trivial))
      split at h
      next hfound =>
        cases h
        rw [wExit_empty s i w hbvb.1]
        have hpull := sum_map_set (fun x => x.pulled) s.workers i (deadWorker w) hw
        have hrep := sum_map_set (fun x => x.reportedSum) s.workers i (deadWorker w) hw
        have hver := sum_map_set (fun x => x.verifiedW) s.workers i (deadWorker w) hw
        have hbat := sum_map_set (fun x => x.batch.length) s.workers i (deadWorker w) hw
        simp only [deadWorker_pulled, deadWorker_reportedSum, deadWorker_verifiedW,
          deadWorker_batch, List.length_nil] at hpull hrep hver hbat
        have hbl : w.batch.length = 0 := by rw [hbvb.1]; rfl
        refine ⟨hI.gBound, ?_, ?_, ?_,
          hI.pushLt, hI.genDone, hI.stopReason, hI.resFound, hI.pwFound,
          ?_,
          fun hp => absurd hp hnpj,
          fun hp hf hi => ?_,
          hI.lateProg,
          fun pw c hc2 => no_outcome_elim hout hc2,
          fun c hc2 => no_outcome_elim hout hc2,
          fun c hc2 => no_outcome_elim hout hc2,
          fun o hc2 => no_outcome_elim hout hc2,
          fun hc2 => no_outcome_isSome hout hc2,
          hI.logOk⟩
        · have hcons := hI.conserve
          simp only [qCands, pulledSum] at hcons ⊢
          omega
        · intro x hx
          rcases mem_of_mem_set _ _ _ _ hx with hxl | rfl
          · exact hI.workerInv x hxl
          · refine ⟨?_, ?_, ?_⟩
            · show w.pulled = w.reportedSum + ([] : List (List Char)).length
              simp only [List.length_nil]
              omega
            · show w.verifiedW ≤ w.reportedSum + 0
              have := hbvb.2
              omega
            · show ([] : List (List Char)) = [] ∧ 0 = 0
              exact ⟨rfl, rfl⟩
        · have hpa := hI.progAcct
          simp only [progSum, reportedTotal] at hpa ⊢
          omega
        · intro hf
          have h1 := hI.foundVerified hf
          simp only [verifiedTotal] at h1 ⊢
          omega
        · obtain ⟨h1, h2, h3, h4⟩ := hI.postLoopQuiet hp hf hi
          refine ⟨h1, h2, ?_, h4⟩
          simp only [batchSum] at h3 ⊢
          omega
      next hfound =>
        cases h
        have hpull := sum_map_set (fun x => x.pulled) s.workers i
          { w with pc := WPC.fill } hw
        have hrep := sum_map_set (fun x => x.reportedSum) s.workers i
          { w with pc := WPC.fill } hw
        have hver := sum_map_set (fun x => x.verifiedW) s.workers i
          { w with pc := WPC.fill } hw
        have hbat := sum_map_set (fun x => x.batch.length) s.workers i
          { w with pc := WPC.fill } hw
        simp only at hpull hrep hver hbat
        refine ⟨hI.gBound, ?_, ?_, ?_,
          hI.pushLt, hI.genDone, hI.stopReason, hI.resFound, hI.pwFound,
          ?_,
          fun hp => absurd hp hnpj,
          fun hp hf hi => ?_,
          hI.lateProg,
          fun pw c hc2 => no_outcome_elim hout hc2,
          fun c hc2 => no_outcome_elim hout hc2,
          fun c hc2 => no_outcome_elim hout hc2,
          fun o hc2 => no_outcome_elim hout hc2,
          fun hc2 => no_outcome_isSome hout hc2,
          hI.logOk⟩
        · have hcons := hI.conserve
          simp only [qCands, pulledSum] at hcons ⊢
          omega
        · intro x hx
          rcases mem_of_mem_set _ _ _ _ hx with hxl | rfl
          · exact hI.workerInv x hxl
          · refine ⟨hw1, hw2, ?_⟩
            show w.verifiedBatch = 0
            exact hbvb.2
        · have hpa := hI.progAcct
          simp only [progSum, reportedTotal] at hpa ⊢
          omega
        · intro hf
          have h1 := hI.foundVerified hf
          simp only [verifiedTotal] at h1 ⊢
          omega
        · obtain ⟨h1, h2, h3, h4⟩ := hI.postLoopQuiet hp hf hi
          refine ⟨h1, h2, ?_, h4⟩
          simp only [batchSum] at h3 ⊢
          omega
    -- worker filling its batch from the candidate queue
    next hpc =>
      have hvbf : w.verifiedBatch = 0 := by
        have := hw3; unfold pcInv at this; rw [hpc] at this; exact this
      have hnpj : ¬ postJoinPC s.copc := by
        intro hp
        have hdead := (allWorkersDead_iff s).mp (hI.joinDead hp).1 w hwmem
        rw [hpc] at hdead
        exact absurd hdead (by simp)
      have hout : s.outcome = none :=
        outcome_none_of_not_cdone hI (fun hcd => hnpj (by rw [hcd]; trivial))
      split at h
      next hlt =>
        split at h
        -- dequeued a candidate: append it to the local batch
        next c rest hpq =>
          cases h
          have hpull := sum_map_set (fun x => x.pulled) s.workers i
            { w with batch := w.batch ++ [c], pulled := w.pulled + 1 } hw
          have hrep := sum_map_set (fun x => x.reportedSum) s.workers i
            { w with batch := w.batch ++ [c], pulled := w.pulled + 1 } hw
          have hver := sum_map_set (fun x => x.verifiedW) s.workers i
            { w with batch := w.batch ++ [c], pulled := w.pulled + 1 } hw
          have hbat := sum_map_set (fun x => x.batch.length) s.workers i
            { w with batch := w.batch ++ [c], pulled := w.pulled + 1 } hw
          simp only [List.length_append, List.length_cons, List.length_nil] at hpull hrep hver hbat
          have hq : qCandsL s.pq = qCandsL rest + 1 := by
            rw [hpq, qCandsL_cons_some]
          refine ⟨hI.gBound, ?_, ?_, ?_,
            hI.pushLt, hI.genDone, hI.stopReason, hI.resFound, hI.pwFound,
            ?_,
            fun hp => absurd hp hnpj,
            fun hp hf hi => ?_,
            hI.lateProg,
            fun pw c2 hc2 => no_outcome_elim hout hc2,
            fun c2 hc2 => no_outcome_elim hout hc2,
            fun c2 hc2 => no_outcome_elim hout hc2,
            fun o hc2 => no_outcome_elim hout hc2,
            fun hc2 => no_outcome_isSome hout hc2,
            hI.logOk⟩
          · have hcons := hI.conserve
            simp only [qCands, pulledSum] at hcons ⊢
            omega
          · intro x hx
            rcases mem_of_mem_set _ _ _ _ hx with hxl | rfl
            · exact hI.workerInv x hxl
            · refine ⟨?_, hw2, ?_⟩
              · show w.pulled + 1 = w.reportedSum + (w.batch ++ [c]).length
                simp only [List.length_append, List.length_cons, List.length_nil]
                omega
              · simp only [pcInv, hpc]
                exact hvbf
          · have hpa := hI.progAcct
            simp only [progSum, reportedTotal] at hpa ⊢
            omega
          · intro hf
            have h1 := hI.foundVerified hf
            simp only [verifiedTotal] at h1 ⊢
            omega
          · obtain ⟨h1, h2, h3, h4⟩ := hI.postLoopQuiet hp hf hi
            simp only [qCands] at h2
            rw [hq] at h2
            exact absurd h2 (by omega)
        -- dequeued the `None` sentinel
        next rest hpq =>
          have hq : qCandsL s.pq = qCandsL rest := by
            rw [hpq, qCandsL_cons_none]
          split at h
          next hbe =>
            cases h
            have hbn : w.batch = [] := by simpa using hbe
            rw [wExit_empty { s with pq := rest } i w hbn]
            have hpull := sum_map_set (fun x => x.pulled) s.workers i (deadWorker w) hw
            have hrep := sum_map_set (fun x => x.reportedSum) s.workers i (deadWorker w) hw
            have hver := sum_map_set (fun x => x.verifiedW) s.workers i (deadWorker w) hw
            have hbat := sum_map_set (fun x => x.batch.length) s.workers i (deadWorker w) hw
            simp only [deadWorker_pulled, deadWorker_reportedSum, deadWorker_verifiedW,
              deadWorker_batch, List.length_nil] at hpull hrep hver hbat
            have hbl : w.batch.length = 0 := by rw [hbn]; rfl
            refine ⟨hI.gBound, ?_, ?_, ?_,
              hI.pushLt, hI.genDone, hI.stopReason, hI.resFound, hI.pwFound,
              ?_,
              fun hp => absurd hp hnpj,
              fun hp hf hi => ?_,
              hI.lateProg,
              fun pw c hc2 => no_outcome_elim hout hc2,
              fun c hc2 => no_outcome_elim hout hc2,
              fun c hc2 => no_outcome_elim hout hc2,
              fun o hc2 => no_outcome_elim hout hc2,
              fun hc2 => no_outcome_isSome hout hc2,
              hI.logOk⟩
            · have hcons := hI.conserve
              simp only [qCands, pulledSum] at hcons ⊢
              omega
            · intro x hx
              rcases mem_of_mem_set _ _ _ _ hx with hxl | rfl
              · exact hI.workerInv x hxl
              · refine ⟨?_, ?_, ?_⟩
                · show w.pulled = w.reportedSum + ([] : List (List Char)).length
                  simp only [List.length_nil]
                  omega
                · show w.verifiedW ≤ w.reportedSum + 0
                  omega
                · show ([] : List (List Char)) = [] ∧ 0 = 0
                  exact ⟨rfl, rfl⟩
            · have hpa := hI.progAcct
              simp only [progSum, reportedTotal] at hpa ⊢
              omega
            · intro hf
              have h1 := hI.foundVerified hf
              simp only [verifiedTotal] at h1 ⊢
              omega
            · obtain ⟨h1, h2, h3, h4⟩ := hI.postLoopQuiet hp hf hi
              simp only [qCands] at h2 ⊢
              refine ⟨h1, by omega, ?_, h4⟩
              simp only [batchSum] at h3 ⊢
              omega
          next hbe =>
            cases h
            have hpull := sum_map_set (fun x => x.pulled) s.workers i
              { w with pc := WPC.proc 0 } hw
            have hrep := sum_map_set (fun x => x.reportedSum) s.workers i
              { w with pc := WPC.proc 0 } hw
            have hver := sum_map_set (fun x => x.verifiedW) s.workers i
              { w with pc := WPC.proc 0 } hw
            have hbat := sum_map_set (fun x => x.batch.length) s.workers i
              { w with pc := WPC.proc 0 } hw
            simp only at hpull hrep hver hbat
            refine ⟨hI.gBound, ?_, ?_, ?_,
              hI.pushLt, hI.genDone, hI.stopReason, hI.resFound, hI.pwFound,
              ?_,
              fun hp => absurd hp hnpj,
              fun hp hf hi => ?_,
              hI.lateProg,
              fun pw c hc2 => no_outcome_elim hout hc2,
              fun c hc2 => no_outcome_elim hout hc2,
              fun c hc2 => no_outcome_elim hout hc2,
              fun o hc2 => no_outcome_elim hout hc2,
              fun hc2 => no_outcome_isSome hout hc2,
              hI.logOk⟩
            · have hcons := hI.conserve
              simp only [qCands, pulledSum] at hcons ⊢
              omega
            · intro x hx
              rcases mem_of_mem_set _ _ _ _ hx with hxl | rfl
              · exact hI.workerInv x hxl
              · refine ⟨hw1, hw2, ?_⟩
                show w.verifiedBatch ≤ 0 ∧ 0 ≤ w.batch.length
                omega
            · have hpa := hI.progAcct
              simp only [progSum, reportedTotal] at hpa ⊢
              omega
            · intro hf
              have h1 := hI.foundVerified hf
              simp only [verifiedTotal] at h1 ⊢
              omega
            · obtain ⟨h1, h2, h3, h4⟩ := hI.postLoopQuiet hp hf hi
              simp only [qCands] at h2 ⊢
              refine ⟨h1, by omega, ?_, h4⟩
              simp only [batchSum] at h3 ⊢
              omega
        next hpq => cases h
      -- batch already full (or batch_size = 0)
      next hlt =>
        split at h
        next hbe =>
          cases h
          have hbn : w.batch = [] := by simpa using hbe
          have hpull := sum_map_set (fun x => x.pulled) s.workers i
            { w with pc := WPC.outer } hw
          have hrep := sum_map_set (fun x => x.reportedSum) s.workers i
            { w with pc := WPC.outer } hw
          have hver := sum_map_set (fun x => x.verifiedW) s.workers i
            { w with pc := WPC.outer } hw
          have hbat := sum_map_set (fun x => x.batch.length) s.workers i
            { w with pc := WPC.outer } hw
          simp only at hpull hrep hver hbat
          refine ⟨hI.gBound, ?_, ?_, ?_,
            hI.pushLt, hI.genDone, hI.stopReason, hI.resFound, hI.pwFound,
            ?_,
            fun hp => absurd hp hnpj,
            fun hp hf hi => ?_,
            hI.lateProg,
            fun pw c hc2 => no_outcome_elim hout hc2,
            fun c hc2 => no_outcome_elim hout hc2,
            fun c hc2 => no_outcome_elim hout hc2,
            fun o hc2 => no_outcome_elim hout hc2,
            fun hc2 => no_outcome_isSome hout hc2,
            hI.logOk⟩
          · have hcons := hI.conserve
            simp only [qCands, pulledSum] at hcons ⊢
            omega
          · intro x hx
            rcases mem_of_mem_set _ _ _ _ hx with hxl | rfl
            · exact hI.workerInv x hxl
            · exact ⟨hw1, hw2, hbn, hvbf⟩
          · have hpa := hI.progAcct
            simp only [progSum, reportedTotal] at hpa ⊢
            omega
          · intro hf
            have h1 := hI.foundVerified hf
            simp only [verifiedTotal] at h1 ⊢
            omega
          · obtain ⟨h1, h2, h3, h4⟩ := hI.postLoopQuiet hp hf hi
            refine ⟨h1, h2, ?_, h4⟩
            simp only [batchSum] at h3 ⊢
            omega
        next hbe =>
          cases h
          have hpull := sum_map_set (fun x => x.pulled) s.workers i
            { w with pc := WPC.proc 0 } hw
          have hrep := sum_map_set (fun x => x.reportedSum) s.workers i
            { w with pc := WPC.proc 0 } hw
          have hver := sum_map_set (fun x => x.verifiedW) s.workers i
            { w with pc := WPC.proc 0 } hw
          have hbat := sum_map_set (fun x => x.batch.length) s.workers i
            { w with pc := WPC.proc 0 } hw
          simp only at hpull hrep hver hbat
          refine ⟨hI.gBound, ?_, ?_, ?_,
            hI.pushLt, hI.genDone, hI.stopReason, hI.resFound, hI.pwFound,
            ?_,
            fun hp => absurd hp hnpj,
            fun hp hf hi => ?_,
            hI.lateProg,
            fun pw c hc2 => no_outcome_elim hout hc2,
            fun c hc2 => no_outcome_elim hout hc2,
            fun c hc2 => no_outcome_elim hout hc2,
            fun o hc2 => no_outcome_elim hout hc2,
            fun hc2 => no_outcome_isSome hout hc2,
            hI.logOk⟩
          · have hcons := hI.conserve
            simp only [qCands, pulledSum] at hcons ⊢
            omega
          · intro x hx
            rcases mem_of_mem_set _ _ _ _ hx with hxl | rfl
            · exact hI.workerInv x hxl
            · refine ⟨hw1, hw2, ?_⟩
              show w.verifiedBatch ≤ 0 ∧ 0 ≤ w.batch.length
              omega
          · have hpa := hI.progAcct
            simp only [progSum, reportedTotal] at hpa ⊢
            omega
          · intro hf
            have h1 := hI.foundVerified hf
            simp only [verifiedTotal] at h1 ⊢
            omega
          · obtain ⟨h1, h2, h3, h4⟩ := hI.postLoopQuiet hp hf hi
            refine ⟨h1, h2, ?_, h4⟩
            simp only [batchSum] at h3 ⊢
            omega
    -- worker at the per-candidate loop header (found_event check, line 345)
    next j hpc =>
      have hpj : w.verifiedBatch ≤ j ∧ j ≤ w.batch.length := by
        have := hw3; unfold pcInv at this; rw [hpc] at this; exact this
      have hnpj : ¬ postJoinPC s.copc := by
        intro hp
        have hdead := (allWorkersDead_iff s).mp (hI.joinDead hp).1 w hwmem
        rw [hpc] at hdead
        exact absurd hdead (by simp)
      have hout : s.outcome = none :=
        outcome_none_of_not_cdone hI (fun hcd => hnpj (by rw [hcd]; trivial))
      split at h
      next hjlt =>
        split at h
        next hfound =>
          cases h
          have hpull := sum_map_set (fun x => x.pulled) s.workers i
            { w with pc := WPC.report } hw
          have hrep := sum_map_set (fun x => x.reportedSum) s.workers i
            { w with pc := WPC.report } hw
          have hver := sum_map_set (fun x => x.verifiedW) s.workers i
            { w with pc := WPC.report } hw
          have hbat := sum_map_set (fun x => x.batch.length) s.workers i
            { w with pc := WPC.report } hw
          simp only at hpull hrep hver hbat
          refine ⟨hI.gBound, ?_, ?_, ?_,
            hI.pushLt, hI.genDone, hI.stopReason, hI.resFound, hI.pwFound,
            ?_,
            fun hp => absurd hp hnpj,
            fun hp hf hi => by simp [hfound] at hf,
            hI.lateProg,
            fun pw c hc2 => no_outcome_elim hout hc2,
            fun c hc2 => no_outcome_elim hout hc2,
            fun c hc2 => no_outcome_elim hout hc2,
            fun o hc2 => no_outcome_elim hout hc2,
            fun hc2 => no_outcome_isSome hout hc2,
            hI.logOk⟩
          · have hcons := hI.conserve
            simp only [qCands, pulledSum] at hcons ⊢
            omega
          · intro x hx
            rcases mem_of_mem_set _ _ _ _ hx with hxl | rfl
            · exact hI.workerInv x hxl
            · refine ⟨hw1, hw2, ?_⟩
              show w.verifiedBatch ≤ w.batch.length
              omega
          · have hpa := hI.progAcct
            simp only [progSum, reportedTotal] at hpa ⊢
            omega
          · intro hf
            have h1 := hI.foundVerified hf
            simp only [verifiedTotal] at h1 ⊢
            omega
        next hfound =>
          cases h
          have hpull := sum_map_set (fun x => x.pulled) s.workers i
            { w with pc := WPC.verifying j } hw
          have hrep := sum_map_set (fun x => x.reportedSum) s.workers i
            { w with pc := WPC.verifying j } hw
          have hver := sum_map_set (fun x => x.verifiedW) s.workers i
            { w with pc := WPC.verifying j } hw
          have hbat := sum_map_set (fun x => x.batch.length) s.workers i
            { w with pc := WPC.verifying j } hw
          simp only at hpull hrep hver hbat
          refine ⟨hI.gBound, ?_, ?_, ?_,
            hI.pushLt, hI.genDone, hI.stopReason, hI.resFound, hI.pwFound,
            ?_,
            fun hp => absurd hp hnpj,
            fun hp hf hi => ?_,
            hI.lateProg,
            fun pw c hc2 => no_outcome_elim hout hc2,
            fun c hc2 => no_outcome_elim hout hc2,
            fun c hc2 => no_outcome_elim hout hc2,
            fun o hc2 => no_outcome_elim hout hc2,
            fun hc2 => no_outcome_isSome hout hc2,
            hI.logOk⟩
          · have hcons := hI.conserve
            simp only [qCands, pulledSum] at hcons ⊢
            omega
          · intro x hx
            rcases mem_of_mem_set _ _ _ _ hx with hxl | rfl
            · exact hI.workerInv x hxl
            · refine ⟨hw1, hw2, ?_⟩
              show w.verifiedBatch ≤ j ∧ j < w.batch.length
              omega
          · have hpa := hI.progAcct
            simp only [progSum, reportedTotal] at hpa ⊢
            omega
          · intro hf
            have h1 := hI.foundVerified hf
            simp only [verifiedTotal] at h1 ⊢
            omega
          · obtain ⟨h1, h2, h3, h4⟩ := hI.postLoopQuiet hp hf hi
            refine ⟨h1, h2, ?_, h4⟩
            simp only [batchSum] at h3 ⊢
            omega
      next hjlt =>
        cases h
        have hpull := sum_map_set (fun x => x.pulled) s.workers i
          { w with pc := WPC.report } hw
        have hrep := sum_map_set (fun x => x.reportedSum) s.workers i
          { w with pc := WPC.report } hw
        have hver := sum_map_set (fun x => x.verifiedW) s.workers i
          { w with pc := WPC.report } hw
        have hbat := sum_map_set (fun x => x.batch.length) s.workers i
          { w with pc := WPC.report } hw
        simp only at hpull hrep hver hbat
        refine ⟨hI.gBound, ?_, ?_, ?_,
          hI.pushLt, hI.genDone, hI.stopReason, hI.resFound, hI.pwFound,
          ?_,
          fun hp => absurd hp hnpj,
          fun hp hf hi => ?_,
          hI.lateProg,
          fun pw c hc2 => no_outcome_elim hout hc2,
          fun c hc2 => no_outcome_elim hout hc2,
          fun c hc2 => no_outcome_elim hout hc2,
          fun o hc2 => no_outcome_elim hout hc2,
          fun hc2 => no_outcome_isSome hout hc2,
          hI.logOk⟩
        · have hcons := hI.conserve
          simp only [qCands, pulledSum] at hcons ⊢
          omega
        · intro x hx
          rcases mem_of_mem_set _ _ _ _ hx with hxl | rfl
          · exact hI.workerInv x hxl
          · refine ⟨hw1, hw2, ?_⟩
            show w.verifiedBatch ≤ w.batch.length
            omega
        · have hpa := hI.progAcct
          simp only [progSum, reportedTotal] at hpa ⊢
          omega
        · intro hf
          have h1 := hI.foundVerified hf
          simp only [verifiedTotal] at h1 ⊢
          omega
        · obtain ⟨h1, h2, h3, h4⟩ := hI.postLoopQuiet hp hf hi
          refine ⟨h1, h2, ?_, h4⟩
          simp only [batchSum] at h3 ⊢
          omega
    -- worker inside the verification call (`pikepdf.open`)
    next j hpc =>
      have hvj : w.verifiedBatch ≤ j ∧ j < w.batch.length := by
        have := hw3; unfold pcInv at this; rw [hpc] at this; exact this
      have hnpj : ¬ postJoinPC s.copc := by
        intro hp
        have hdead := (allWorkersDead_iff s).mp (hI.joinDead hp).1 w hwmem
        rw [hpc] at hdead
        exact absurd hdead (by simp)
      have hout : s.outcome = none :=
        outcome_none_of_not_cdone hI (fun hcd => hnpj (by rw [hcd]; trivial))
      split at h
      next hget => cases h
      next c hget =>
        split at h
        next hchk =>
          split at h
          -- a match, but the latch was already set: just break
          next hfound =>
            cases h
            have hpull := sum_map_set (fun x => x.pulled) s.workers i
              { w with verifiedW := w.verifiedW + 1,
                       verifiedBatch := w.verifiedBatch + 1, pc := WPC.report } hw
            have hrep := sum_map_set (fun x => x.reportedSum) s.workers i
              { w with verifiedW := w.verifiedW + 1,
                       verifiedBatch := w.verifiedBatch + 1, pc := WPC.report } hw
            have hver := sum_map_set (fun x => x.verifiedW) s.workers i
              { w with verifiedW := w.verifiedW + 1,
                       verifiedBatch := w.verifiedBatch + 1, pc := WPC.report } hw
            have hbat := sum_map_set (fun x => x.batch.length) s.workers i
              { w with verifiedW := w.verifiedW + 1,
                       verifiedBatch := w.verifiedBatch + 1, pc := WPC.report } hw
            simp only at hpull hrep hver hbat
            refine ⟨hI.gBound, ?_, ?_, ?_,
              hI.pushLt, hI.genDone, hI.stopReason, hI.resFound, hI.pwFound,
              ?_,
              fun hp => absurd hp hnpj,
              fun hp hf hi => by simp [hfound] at hf,
              hI.lateProg,
              fun pw c2 hc2 => no_outcome_elim hout hc2,
              fun c2 hc2 => no_outcome_elim hout hc2,
              fun c2 hc2 => no_outcome_elim hout hc2,
              fun o hc2 => no_outcome_elim hout hc2,
              fun hc2 => no_outcome_isSome hout hc2,
              hI.logOk⟩
            · have hcons := hI.conserve
              simp only [qCands, pulledSum] at hcons ⊢
              omega
            · intro x hx
              rcases mem_of_mem_set _ _ _ _ hx with hxl | rfl
              · exact hI.workerInv x hxl
              · refine ⟨hw1, ?_, ?_⟩
                · show w.verifiedW + 1 ≤ w.reportedSum + (w.verifiedBatch + 1)
                  omega
                · show w.verifiedBatch + 1 ≤ w.batch.length
                  omega
            · have hpa := hI.progAcct
              simp only [progSum, reportedTotal] at hpa ⊢
              omega
            · intro hf
              have h1 := hI.foundVerified hf
              simp only [verifiedTotal] at h1 ⊢
              omega
          -- a match with the latch still clear: set latch and publish
          next hfound =>
            cases h
            have hpull := sum_map_set (fun x => x.pulled) s.workers i
              { w with verifiedW := w.verifiedW + 1,
                       verifiedBatch := w.verifiedBatch + 1, pc := WPC.report } hw
            have hrep := sum_map_set (fun x => x.reportedSum) s.workers i
              { w with verifiedW := w.verifiedW + 1,
                       verifiedBatch := w.verifiedBatch + 1, pc := WPC.report } hw
            have hver := sum_map_set (fun x => x.verifiedW) s.workers i
              { w with verifiedW := w.verifiedW + 1,
                       verifiedBatch := w.verifiedBatch + 1, pc := WPC.report } hw
            have hbat := sum_map_set (fun x => x.batch.length) s.workers i
              { w with verifiedW := w.verifiedW + 1,
                       verifiedBatch := w.verifiedBatch + 1, pc := WPC.report } hw
            simp only at hpull hrep hver hbat
            refine ⟨hI.gBound, ?_, ?_, ?_,
              hI.pushLt, hI.genDone,
              fun _ => Or.inr rfl,
              fun _ => rfl, fun _ => rfl,
              fun _ => ?_,
              fun hp => absurd hp hnpj,
              fun hp hf hi => by simp at hf,
              hI.lateProg,
              fun pw c2 hc2 => no_outcome_elim hout hc2,
              fun c2 hc2 => no_outcome_elim hout hc2,
              fun c2 hc2 => no_outcome_elim hout hc2,
              fun o hc2 => no_outcome_elim hout hc2,
              fun hc2 => no_outcome_isSome hout hc2,
              hI.logOk⟩
            · have hcons := hI.conserve
              simp only [qCands, pulledSum] at hcons ⊢
              omega
            · intro x hx
              rcases mem_of_mem_set _ _ _ _ hx with hxl | rfl
              · exact hI.workerInv x hxl
              · refine ⟨hw1, ?_, ?_⟩
                · show w.verifiedW + 1 ≤ w.reportedSum + (w.verifiedBatch + 1)
                  omega
                · show w.verifiedBatch + 1 ≤ w.batch.length
                  omega
            · have hpa := hI.progAcct
              simp only [progSum, reportedTotal] at hpa ⊢
              omega
            · simp only [verifiedTotal]
              omega
        -- no match (or a contained verification error): next candidate
        next hchk =>
          cases h
          have hpull := sum_map_set (fun x => x.pulled) s.workers i
            { w with verifiedW := w.verifiedW + 1,
                     verifiedBatch := w.verifiedBatch + 1, pc := WPC.proc (j + 1) } hw
          have hrep := sum_map_set (fun x => x.reportedSum) s.workers i
            { w with verifiedW := w.verifiedW + 1,
                     verifiedBatch := w.verifiedBatch + 1, pc := WPC.proc (j + 1) } hw
          have hver := sum_map_set (fun x => x.verifiedW) s.workers i
            { w with verifiedW := w.verifiedW + 1,
                     verifiedBatch := w.verifiedBatch + 1, pc := WPC.proc (j + 1) } hw
          have hbat := sum_map_set (fun x => x.batch.length) s.workers i
            { w with verifiedW := w.verifiedW + 1,
                     verifiedBatch := w.verifiedBatch + 1, pc := WPC.proc (j + 1) } hw
          simp only at hpull hrep hver hbat
          refine ⟨hI.gBound, ?_, ?_, ?_,
            hI.pushLt, hI.genDone, hI.stopReason, hI.resFound, hI.pwFound,
            ?_,
            fun hp => absurd hp hnpj,
            fun hp hf hi => ?_,
            hI.lateProg,
            fun pw c2 hc2 => no_outcome_elim hout hc2,
            fun c2 hc2 => no_outcome_elim hout hc2,
            fun c2 hc2 => no_outcome_elim hout hc2,
            fun o hc2 => no_outcome_elim hout hc2,
            fun hc2 => no_outcome_isSome hout hc2,
            hI.logOk⟩
          · have hcons := hI.conserve
            simp only [qCands, pulledSum] at hcons ⊢
            omega
          · intro x hx
            rcases mem_of_mem_set _ _ _ _ hx with hxl | rfl
            · exact hI.workerInv x hxl
            · refine ⟨hw1, ?_, ?_⟩
              · show w.verifiedW + 1 ≤ w.reportedSum + (w.verifiedBatch + 1)
                omega
              · show w.verifiedBatch + 1 ≤ j + 1 ∧ j + 1 ≤ w.batch.length
                omega
          · have hpa := hI.progAcct
            simp only [progSum, reportedTotal] at hpa ⊢
            omega
          · intro hf
            have h1 := hI.foundVerified hf
            simp only [verifiedTotal] at h1 ⊢
            omega
          · obtain ⟨h1, h2, h3, h4⟩ := hI.postLoopQuiet hp hf hi
            refine ⟨h1, h2, ?_, h4⟩
            simp only [batchSum] at h3 ⊢
            omega
    -- worker pushing its progress report for the finished batch
    next hpc =>
      have hvbrep : w.verifiedBatch ≤ w.batch.length := by
        have := hw3; unfold pcInv at this; rw [hpc] at this; exact this
      have hnpj : ¬ postJoinPC s.copc := by
        intro hp
        have hdead := (allWorkersDead_iff s).mp (hI.joinDead hp).1 w hwmem
        rw [hpc] at hdead
        exact absurd hdead (by simp)
      have hout : s.outcome = none :=
        outcome_none_of_not_cdone hI (fun hcd => hnpj (by rw [hcd]; trivial))
      cases h
      have hpull := sum_map_set (fun x => x.pulled) s.workers i
        { w with pc := WPC.outer, batch := [],
                 reportedSum := w.reportedSum + w.batch.length,
                 verifiedBatch := 0 } hw
      have hrep := sum_map_set (fun x => x.reportedSum) s.workers i
        { w with pc := WPC.outer, batch := [],
                 reportedSum := w.reportedSum + w.batch.length,
                 verifiedBatch := 0 } hw
      have hver := sum_map_set (fun x => x.verifiedW) s.workers i
        { w with pc := WPC.outer, batch := [],
                 reportedSum := w.reportedSum + w.batch.length,
                 verifiedBatch := 0 } hw
      have hbat := sum_map_set (fun x => x.batch.length) s.workers i
        { w with pc := WPC.outer, batch := [],
                 reportedSum := w.reportedSum + w.batch.length,
                 verifiedBatch := 0 } hw
      simp only [List.length_nil] at hpull hrep hver hbat
      refine ⟨hI.gBound, ?_, ?_, ?_,
        hI.pushLt, hI.genDone, hI.stopReason, hI.resFound, hI.pwFound,
        ?_,
        fun hp => absurd hp hnpj,
        fun hp hf hi => ?_,
        fun hl => absurd (postJoin_of_late hl) hnpj,
        fun pw c hc2 => no_outcome_elim hout hc2,
        fun c hc2 => no_outcome_elim hout hc2,
        fun c hc2 => no_outcome_elim hout hc2,
        fun o hc2 => no_outcome_elim hout hc2,
        fun hc2 => no_outcome_isSome hout hc2,
        ?_⟩
      · have hcons := hI.conserve
        simp only [qCands, pulledSum] at hcons ⊢
        omega
      · intro x hx
        rcases mem_of_mem_set _ _ _ _ hx with hxl | rfl
        · exact hI.workerInv x hxl
        · refine ⟨?_, ?_, ?_⟩
          · show w.pulled = w.reportedSum + w.batch.length + 0
            omega
          · show w.verifiedW ≤ w.reportedSum + w.batch.length + 0
            omega
          · show ([] : List (List Char)) = [] ∧ 0 = 0
            exact ⟨rfl, rfl⟩
      · have hpa := hI.progAcct
        simp only [progSum, reportedTotal] at hpa ⊢
        rw [List.sum_append, List.sum_cons, List.sum_nil]
        omega
      · intro hf
        have h1 := hI.foundVerified hf
        simp only [verifiedTotal] at h1 ⊢
        omega
      · obtain ⟨h1, h2, h3, h4⟩ := hI.postLoopQuiet hp hf hi
        have hb0 : w.batch = [] := batch_nil_of_batchSum_zero h3 w hwmem
        have hbl : w.batch.length = 0 := by rw [hb0]; rfl
        refine ⟨?_, h2, ?_, h4⟩
        · show s.processed + (s.progq ++ [w.batch.length]).sum = totalP cfg
          rw [List.sum_append, List.sum_cons, List.sum_nil]
          simp only [progSum] at h1
          omega
        · simp only [batchSum] at h3 ⊢
          omega
      · intro rv hrv
        rcases List.mem_append.mp hrv with h1 | h1
        · exact hI.logOk rv h1
        · have hrv2 : rv = (w.batch.length, w.verifiedBatch) := by simpa using h1
          rw [hrv2]
          exact hvbrep
    next hpc => cases h

theorem inv_step {cfg : Cfg} {s s' : St} {ch : Sched}
    (h : step cfg s ch = some s') (hI : SysInv cfg s) : SysInv cfg s' := by
  cases ch with
  | gen => exact inv_genStep h hI
  | worker i => exact inv_workerStep h hI
  | wtimeout i => exact inv_wTimeoutStep h hI
  | coord => exact inv_coordStep h hI
  | interrupt => exact inv_interruptStep h hI

theorem inv_exec {cfg : Cfg} : ∀ (l : List Sched) (s s' : St),
    exec cfg l s = some s' → SysInv cfg s → SysInv cfg s' := by
  intro l
  induction l with
  | nil =>
    intro s s' h hI
    rw [exec] at h
    cases h
    exact hI
  | cons c cs ih =>
    intro s s' h hI
    rw [exec] at h
    cases hs : step cfg s c with
    | none => rw [hs] at h; cases h
    | some s1 =>
      rw [hs] at h
      exact ih s1 s' h (inv_step hs hI)

theorem inv_reachable {cfg : Cfg} {s : St} (h : Reachable cfg s) : SysInv cfg s := by
  obtain ⟨l, hl⟩ := h
  exact inv_exec l _ s hl (inv_init cfg)

theorem wExit_found (s : St) (i : Nat) (w : WorkerSt) :
    (wExit s i w).found = s.found := by
  cases hb : w.batch.isEmpty <;> simp [wExit, hb]

theorem step_found_mono {cfg : Cfg} {s s' : St} {ch : Sched}
    (h : step cfg s ch = some s') (hf : s.found = true) : s'.found = true := by
  cases ch <;> simp only [step] at h
  case gen =>
    rw [genStep] at h
    split at h <;> (try split at h) <;> (try split at h) <;>
      (cases h <;> exact hf)
  case worker i =>
    rw [workerStep] at h
    split at h
    next => cases h
    next w hw =>
      split at h <;> (try split at h) <;> (try split at h) <;>
        (try split at h) <;> (try split at h) <;>
        (cases h <;> first
          | exact hf
          | rfl
          | (rw [wExit_found]; exact hf))
  case wtimeout i =>
    rw [wTimeoutStep] at h
    split at h
    next => cases h
    next w hw =>
      split at h <;> (try split at h) <;> (try split at h) <;>
        (cases h <;> first
          | exact hf
          | rfl
          | (rw [wExit_found]; exact hf))
  case coord =>
    rw [coordStep] at h
    split at h <;> (try split at h) <;> (try split at h) <;>
      (try split at h) <;>
      (cases h <;> first | exact hf | rfl)
  case interrupt =>
    rw [interruptStep] at h
    split at h <;> (cases h <;> exact hf)

/-- Run A: charset "ab", lengths 2-2, two workers, batch size 4, document
password "bb" (the last candidate, position 3 of the enumeration).  The
schedule lets worker 0 pull candidates 0-2 into its batch, worker 1 pull
candidate 3, verify it first and set the latch; worker 0 then abandons its
entire batch unverified but still reports its full length. -/
def cfgA : Cfg :=
  { charset := ['a', 'b'], minLen := 2, maxLen := 2, numProcesses := 2,
    batchSize := 4, pwCheck := fun c => c == ['b', 'b'] }

def schedA : List Sched :=
  List.replicate 8 Sched.gen ++ List.replicate 4 (Sched.worker 0) ++
  List.replicate 2 (Sched.worker 1) ++ List.replicate 4 Sched.gen ++
  List.replicate 5 (Sched.worker 1) ++ List.replicate 4 (Sched.worker 0) ++
  List.replicate 9 Sched.coord

def sAfin : St :=
  { gen := GenPC.gdone, gIdx := 4, pq := [],
    workers :=
      [{ pc := WPC.wdead, batch := [], pulled := 3, reportedSum := 3,
         verifiedW := 0, verifiedBatch := 0 },
       { pc := WPC.wdead, batch := [], pulled := 1, reportedSum := 1,
         verifiedW := 1, verifiedBatch := 0 }],
    found := true, stopGen := false, resq := [], progq := [], processed := 4,
    foundPw := some ['b', 'b'], interrupted := false, copc := CoPC.cdone,
    outcome := some (Outc.passwordFound ['b', 'b'] 4),
    reportLog := [(1, 1), (3, 0)] }

/-- Run B: same charset and lengths, two workers, batch size 1, document
password "aa" (position 0).  Worker 0 pulls "aa" but is not scheduled;
worker 1 meanwhile verifies the three other candidates; only then does
worker 0 verify the match.  4 candidates are verified although the match
sits at position 0 and worker_count x batch_size = 2. -/
def cfgB : Cfg :=
  { charset := ['a', 'b'], minLen := 2, maxLen := 2, numProcesses := 2,
    batchSize := 1, pwCheck := fun c => c == ['a', 'a'] }

def schedB : List Sched :=
  List.replicate 4 Sched.gen ++ List.replicate 2 (Sched.worker 0) ++
  List.replicate 8 (Sched.worker 1) ++ List.replicate 8 Sched.gen ++
  List.replicate 14 (Sched.worker 1) ++ List.replicate 5 (Sched.worker 0) ++
  [Sched.worker 1] ++ List.replicate 11 Sched.coord

def sBfin : St :=
  { gen := GenPC.gdone, gIdx := 4, pq := [none],
    workers :=
      [{ pc := WPC.wdead, batch := [], pulled := 1, reportedSum := 1,
         verifiedW := 1, verifiedBatch := 0 },
       { pc := WPC.wdead, batch := [], pulled := 3, reportedSum := 3,
         verifiedW := 3, verifiedBatch := 0 }],
    found := true, stopGen := false, resq := [], progq := [], processed := 4,
    foundPw := some ['a', 'a'], interrupted := false, copc := CoPC.cdone,
    outcome := some (Outc.passwordFound ['a', 'a'] 4),
    reportLog := [(1, 1), (1, 1), (1, 1), (1, 1)] }

/-- Run C: charset "a", lengths 1-1, one worker, no candidate matches: a
completed PasswordNotFound run. -/
def cfgC : Cfg :=
  { charset := ['a'], minLen := 1, maxLen := 1, numProcesses := 1,
    batchSize := 5, pwCheck := fun c => c == ['z'] }

def schedC : List Sched :=
  List.replicate 5 Sched.gen ++ List.replicate 8 (Sched.worker 0) ++
  [Sched.wtimeout 0] ++ List.replicate 8 Sched.coord

def sCfin : St :=
  { gen := GenPC.gdone, gIdx := 1, pq := [],
    workers :=
      [{ pc := WPC.wdead, batch := [], pulled := 1, reportedSum := 1,
         verifiedW := 1, verifiedBatch := 0 }],
    found := false, stopGen := false, resq := [], progq := [], processed := 1,
    foundPw := none, interrupted := false, copc := CoPC.cdone,
    outcome := some (Outc.passwordNotFound 1), reportLog := [(1, 1)] }

/-- Run D: as run C but a `KeyboardInterrupt` arrives before any work is
done: a CrackingInterrupted run. -/
def schedD : List Sched :=
  [Sched.interrupt] ++ List.replicate 3 Sched.gen ++
  List.replicate 2 (Sched.worker 0) ++ List.replicate 5 Sched.coord

def sDfin : St :=
  { gen := GenPC.gdone, gIdx := 0, pq := [],
    workers :=
      [{ pc := WPC.wdead, batch := [], pulled := 0, reportedSum := 0,
         verifiedW := 0, verifiedBatch := 0 }],
    found := false, stopGen := true, resq := [], progq := [], processed := 0,
    foundPw := none, interrupted := true, copc := CoPC.cdone,
    outcome := some (Outc.crackingInterrupted 0), reportLog := [] }

/-- Run E: min_len 2 > max_len 1 — empty search space. -/
def cfgE : Cfg :=
  { charset := ['a'], minLen := 2, maxLen := 1, numProcesses := 1,
    batchSize := 5, pwCheck := fun c => c == ['z'] }

def schedE : List Sched :=
  List.replicate 3 Sched.gen ++ List.replicate 2 (Sched.worker 0) ++
  List.replicate 6 Sched.coord

def sEfin : St :=
  { gen := GenPC.gdone, gIdx := 0, pq := [],
    workers :=
      [{ pc := WPC.wdead, batch := [], pulled := 0, reportedSum := 0,
         verifiedW := 0, verifiedBatch := 0 }],
    found := false, stopGen := false, resq := [], progq := [], processed := 0,
    foundPw := none, interrupted := false, copc := CoPC.cdone,
    outcome := some (Outc.passwordNotFound 0), reportLog := [] }

theorem execA : exec cfgA schedA (initSt cfgA) = some sAfin := by decide

theorem execB : exec cfgB schedB (initSt cfgB) = some sBfin := by decide

theorem execC : exec cfgC schedC (initSt cfgC) = some sCfin := by decide

theorem execD : exec cfgC schedD (initSt cfgC) = some sDfin := by decide

theorem execE : exec cfgE schedE (initSt cfgE) = some sEfin := by decide

/-- Shape of one process-join call issued by the coordinator at shutdown:
whether the `join` was given a timeout argument, and whether the process is
forcibly terminated afterwards if still alive. -/
structure JoinCall where
  hasTimeout : Bool
  forceTerminateAfter : Bool
  deriving DecidableEq

/-- The join calls `_manage_workers` issues on its way out (`core.py`,
lines 258-262): `p.join()` for each of the `num_processes` workers, then
`generator_process.join()`.  Every call is a plain `join()` — no timeout
argument, and no `terminate()` anywhere in the function. -/
def shutdownJoinCalls (numProcesses : Nat) : List JoinCall :=
  List.replicate numProcesses
      { hasTimeout := false, forceTerminateAfter := false } ++
    [{ hasTimeout := false, forceTerminateAfter := false }]

/-- Result of the initial probe `_initialize_cracking` (`core.py`,
lines 88-111): the document opened without a password (`notEncrypted`),
raised `pikepdf.PasswordError` (`encrypted`), was missing
(`fileNotFound`), or failed some other way (`probeError`). -/
inductive ProbeOutcome
  | encrypted
  | notEncrypted
  | fileNotFound
  | probeError
  deriving DecidableEq

/-- The result model of `models/cracking_result.py`, restricted to the
variants `crack_pdf_password` can return; wall-clock fields are not
modelled. -/
inductive CrackResult
  | passwordFound (password : List Char) (passwordsChecked : Nat)
  | passwordNotFound (passwordsChecked : Nat)
  | crackingInterrupted (passwordsChecked : Nat)
  | notEncrypted
  | fileReadError (errorMessage : String)
  | initializationError (errorMessage : String)
  deriving DecidableEq

/-- Embedding of the init phase of `crack_pdf_password` (`core.py`,
lines 45-85): the empty-charset check (lines 47-51) runs first, then the
probe result is dispatched; only in the `encrypted` case does the run
proceed to `_manage_workers`, which is where the generator process and the
`num_processes` worker processes are started.  The second component is the
number of worker processes spawned. -/
def crack_pdf_password (minLen maxLen : Nat) (charset : List Char)
    (numProcesses : Nat) (probe : ProbeOutcome) (searchResult : CrackResult) :
    CrackResult × Nat :=
  if charset = [] then
    (CrackResult.initializationError "Charset cannot be empty.", 0)
  else
    match probe with
    | ProbeOutcome.notEncrypted => (CrackResult.notEncrypted, 0)
    | ProbeOutcome.fileNotFound => (CrackResult.fileReadError "file not found", 0)
    | ProbeOutcome.probeError => (CrackResult.initializationError "probe error", 0)
    | ProbeOutcome.encrypted => (searchResult, numProcesses)

/-- C5: for every charset of size k >= 1 and min_len <= max_len, the
generator yields exactly sum over L in [min_len, max_len] of k^L
candidates, each a string of length L in [min_len, max_len] over the
charset. -/
theorem generator_counts_search_space (minLen maxLen : Nat) (charset : List Char)
    (hk : 1 ≤ charset.length) (hml : minLen ≤ maxLen) :
    (generate_passwords minLen maxLen charset).length
      = (Finset.Icc minLen maxLen).sum (charset.length ^ ·) ∧
    ∀ p ∈ generate_passwords minLen maxLen charset,
      minLen ≤ p.length ∧ p.length ≤ maxLen ∧ ∀ c ∈ p, c ∈ charset := by
  refine ⟨?_, fun p hp => mem_generate_passwords hp⟩
  rw [length_generate_passwords, totalPasswords_eq_Icc_sum]

theorem generator_counts_search_space_witness :
    (generate_passwords 1 2 ['a', 'b']).length
      = (Finset.Icc 1 2).sum ((['a', 'b'] : List Char).length ^ ·) ∧
    ∀ p ∈ generate_passwords 1 2 ['a', 'b'],
      1 ≤ p.length ∧ p.length ≤ 2 ∧ ∀ c ∈ p, c ∈ (['a', 'b'] : List Char) :=
  generator_counts_search_space 1 2 ['a', 'b'] (by decide) (by decide)

/-- C6: the generator's output order is deterministic: candidates appear in
nondecreasing length (all of length L before any of length L+1), within a
length block position n holds the base-k word `nthWord` (the
Cartesian-product order implied by the charset's sequence), and identical
parameters give identical sequences. -/
theorem generator_order_deterministic (minLen maxLen : Nat) (charset : List Char) :
    ((generate_passwords minLen maxLen charset).Pairwise
        fun p q => p.length ≤ q.length) ∧
    (∀ L n, n < charset.length ^ L →
      (productR charset L).getD n [] = nthWord charset L n) ∧
    (∀ m2 M2 c2, minLen = m2 → maxLen = M2 → charset = c2 →
      generate_passwords minLen maxLen charset = generate_passwords m2 M2 c2) := by
  refine ⟨generate_passwords_pairwise_length minLen maxLen charset,
    fun L n hn => productR_getD charset L n hn,
    fun m2 M2 c2 h1 h2 h3 => by rw [h1, h2, h3]⟩

theorem generator_order_deterministic_witness :
    (productR ['a', 'b'] 2).getD 2 [] = nthWord ['a', 'b'] 2 2 :=
  (generator_order_deterministic 2 2 ['a', 'b']).2.1 2 2 (by decide)

/-- C1: a run that completes with a PasswordNotFound outcome with no match
and no interruption has counted exactly the total search space: the
returned passwords_checked equals it, and the sum of all progress-channel
reports equals it. -/
theorem notfound_counts_exact (cfg : Cfg) (s : St) (c : Nat)
    (hreach : Reachable cfg s)
    (hout : s.outcome = some (Outc.passwordNotFound c))
    (hnf : s.found = false) (hni : s.interrupted = false) :
    c = totalP cfg ∧ reportedTotal s = totalP cfg := by
  have hI := inv_reachable hreach
  have hc := hI.outNF c hout
  exact ⟨(hc.2.2 hnf hni).1, (hc.2.2 hnf hni).2⟩

theorem notfound_counts_exact_witness :
    1 = totalP cfgC ∧ reportedTotal sCfin = totalP cfgC :=
  notfound_counts_exact cfgC sCfin 1 ⟨schedC, execC⟩ (by decide) (by decide)
    (by decide)

/-- C2 counterexample: both bounds of the early-exit claim fail on the
code.  In run A the match sits at position 3 of the enumeration yet only 1
candidate is verified before termination (the other worker abandons its
batch), refuting the lower bound.  In run B the match sits at position 0
with worker_count x batch_size = 2, yet 4 candidates are verified
(workers keep verifying later candidates while the worker holding the
match is not scheduled), refuting the upper bound. -/
theorem early_exit_bounds_counterexample :
    (exec cfgA schedA (initSt cfgA) = some sAfin ∧
      sAfin.outcome = some (Outc.passwordFound ['b', 'b'] 4) ∧
      (genList cfgA).getD 3 [] = ['b', 'b'] ∧
      verifiedTotal sAfin = 1 ∧ ¬ (3 ≤ verifiedTotal sAfin)) ∧
    (exec cfgB schedB (initSt cfgB) = some sBfin ∧
      sBfin.outcome = some (Outc.passwordFound ['a', 'a'] 4) ∧
      (genList cfgB).getD 0 [] = ['a', 'a'] ∧
      verifiedTotal sBfin = 4 ∧
      ¬ (verifiedTotal sBfin ≤ 0 + cfgB.numProcesses * cfgB.batchSize)) := by
  exact ⟨⟨execA, by decide, by decide, by decide, by decide⟩,
    ⟨execB, by decide, by decide, by decide, by decide⟩⟩

/-- C2 (amended): in every terminated run with a PasswordFound outcome, the
number of candidates verified across all workers is at least 1 (the match
itself was verified) and at most the total search space; under arbitrary
scheduling no bound in terms of the match's position P or of
worker_count x batch_size holds. -/
theorem found_verified_bounds (cfg : Cfg) (s : St) (pw : List Char) (c : Nat)
    (hreach : Reachable cfg s)
    (hout : s.outcome = some (Outc.passwordFound pw c)) :
    1 ≤ verifiedTotal s ∧ verifiedTotal s ≤ totalP cfg := by
  have hI := inv_reachable hreach
  exact ⟨hI.foundVerified (hI.outFound pw c hout).1, verifiedTotal_le_totalP hI⟩

theorem found_verified_bounds_witness :
    1 ≤ verifiedTotal sAfin ∧ verifiedTotal sAfin ≤ totalP cfgA :=
  found_verified_bounds cfgA sAfin ['b', 'b'] 4 ⟨schedA, execA⟩ (by decide)

/-- C3 counterexample: the claim that every shutdown join carries a bounded
timeout with forced termination afterwards is false for the join calls the
coordinator actually issues (with 1 worker, already the first call is a
plain blocking `join()`). -/
theorem join_timeout_counterexample :
    ¬ ∀ c ∈ shutdownJoinCalls 1,
        c.hasTimeout = true ∧ c.forceTerminateAfter = true := by
  decide

/-- C3 (amended): on a terminal transition the coordinator joins each
worker and the generator with a plain blocking `join()` — no timeout and no
forced termination — so it can hang on a stuck worker. -/
theorem joins_are_plain_blocking (numProcesses : Nat) :
    shutdownJoinCalls numProcesses =
      List.replicate (numProcesses + 1)
        { hasTimeout := false, forceTerminateAfter := false } := by
  rw [shutdownJoinCalls, List.replicate_succ']

/-- C4 counterexample: in run A a worker whose batch of 3 candidates was
abandoned entirely unverified (the latch was already set) still pushes 3 to
the progress channel: the report log contains the pair
(reported = 3, verified-in-batch = 0). -/
theorem progress_report_counterexample :
    exec cfgA schedA (initSt cfgA) = some sAfin ∧
    (3, 0) ∈ sAfin.reportLog ∧ ¬ ((3 : Nat) = 0) :=
  ⟨execA, by decide, by decide⟩

/-- C4 (amended): after finishing a batch a worker pushes the full batch
length — the number of candidates pulled into the batch, including any
abandoned unverified — so the pushed reports plus the live batches account
exactly for all pulled candidates, and each report is at least the number
actually verified in that batch. -/
theorem progress_reports_batch_length (cfg : Cfg) (s : St)
    (hreach : Reachable cfg s) :
    reportedTotal s + batchSum s = pulledSum s ∧
    ∀ rv ∈ s.reportLog, rv.2 ≤ rv.1 := by
  have hI := inv_reachable hreach
  have hps := pulled_split hI
  exact ⟨by omega, hI.logOk⟩

theorem progress_reports_batch_length_witness :
    reportedTotal sAfin + batchSum sAfin = pulledSum sAfin ∧
    ∀ rv ∈ sAfin.reportLog, rv.2 ≤ rv.1 :=
  progress_reports_batch_length cfgA sAfin ⟨schedA, execA⟩

/-- C7: with an empty charset, `crack_pdf_password` returns
InitializationError for every min_len, max_len, worker count, probe result
and would-be search result, and zero worker processes are spawned: the
check precedes `_manage_workers`. -/
theorem empty_charset_initialization_error (minLen maxLen numProcesses : Nat)
    (probe : ProbeOutcome) (searchResult : CrackResult) :
    crack_pdf_password minLen maxLen [] numProcesses probe searchResult
      = (CrackResult.initializationError "Charset cannot be empty.", 0) := by
  simp [crack_pdf_password]

/-- C8: a completed run with the interruption flag set yields the
CrackingInterrupted outcome carrying exactly the aggregated partial count,
and that count never exceeds the total search space. -/
theorem interrupted_outcome_bounded (cfg : Cfg) (s : St) (o : Outc)
    (hreach : Reachable cfg s) (hout : s.outcome = some o)
    (hint : s.interrupted = true) :
    o = Outc.crackingInterrupted s.processed ∧ s.processed ≤ totalP cfg := by
  have hI := inv_reachable hreach
  exact ⟨hI.outIntOnly o hout hint, processed_le_totalP hI⟩

theorem interrupted_outcome_bounded_witness :
    Outc.crackingInterrupted 0 = Outc.crackingInterrupted sDfin.processed ∧
    sDfin.processed ≤ totalP cfgC :=
  interrupted_outcome_bounded cfgC sDfin (Outc.crackingInterrupted 0)
    ⟨schedD, execD⟩ (by decide) (by decide)

/-- C9: the cancellation latch is write-once-wins: every step of any task
either leaves `found_event` unchanged or sets it, and once set it is never
cleared. -/
theorem latch_write_once (cfg : Cfg) (s s' : St) (ch : Sched)
    (h : step cfg s ch = some s') :
    (s.found = true → s'.found = true) ∧
    (s'.found = s.found ∨ s'.found = true) := by
  refine ⟨step_found_mono h, ?_⟩
  cases hs' : s'.found
  · left
    cases hs : s.found
    · rfl
    · have := step_found_mono h hs
      rw [this] at hs'
      cases hs'
  · right
    rfl

def sLatch : St := { initSt cfgC with found := true }

def sLatch2 : St :=
  { sLatch with interrupted := true, stopGen := true, copc := CoPC.joinPhase }

theorem latch_write_once_witness :
    (sLatch.found = true → sLatch2.found = true) ∧
    (sLatch2.found = sLatch.found ∨ sLatch2.found = true) :=
  latch_write_once cfgC sLatch sLatch2 Sched.interrupt (by decide)

/-- C10: with min_len > max_len (non-empty charset, encrypted readable
document) no error is raised: the generator yields zero candidates, the
total search space is 0, and every completed non-interrupted run returns
PasswordNotFound with passwords_checked = 0. -/
theorem min_gt_max_notfound_zero (cfg : Cfg) (s : St) (o : Outc)
    (hlt : cfg.maxLen < cfg.minLen)
    (hreach : Reachable cfg s) (hout : s.outcome = some o)
    (hni : s.interrupted = false) :
    genList cfg = [] ∧ totalP cfg = 0 ∧ o = Outc.passwordNotFound 0 := by
  have hI := inv_reachable hreach
  have hzero : cfg.maxLen + 1 - cfg.minLen = 0 := by omega
  have hemp : genList cfg = [] := by
    rw [genList, generate_passwords, hzero]
    rfl
  have htz : totalP cfg = 0 := by
    rw [totalP, totalPasswords, hzero]
    rfl
  refine ⟨hemp, htz, ?_⟩
  cases o with
  | passwordFound pw c =>
    have hfd := (hI.outFound pw c hout).1
    have h1 := hI.foundVerified hfd
    have h2 := verifiedTotal_le_totalP hI
    omega
  | passwordNotFound c =>
    have hc := hI.outNF c hout
    have h2 := hc.2.1
    have h1 : c = 0 := by omega
    rw [h1]
  | crackingInterrupted c =>
    have hc := (hI.outInt c hout).1
    rw [hni] at hc
    cases hc

theorem min_gt_max_notfound_zero_witness :
    genList cfgE = [] ∧ totalP cfgE = 0 ∧
    Outc.passwordNotFound 0 = Outc.passwordNotFound 0 :=
  min_gt_max_notfound_zero cfgE sEfin (Outc.passwordNotFound 0) (by decide)
    ⟨schedE, execE⟩ (by decide) (by decide)
